import Mathlib

/-!
Shallow embedding of the retrieval-and-grounding engine (chunking,
retrieval fusion, citation extraction/validation) of the `why` repository.

Python strings are modelled as `List Char` with character-based indexing
(`pySlice` is Python's `s[a:b]` for non-negative indices, `pySliceInt`
the general form with negative indices).  External services are modelled
as oracle parameters: `tok` stands for the tiktoken-based `count_tokens`,
`embed`/`cos` for the OpenAI embedding service and `cosine_similarity`,
and the FAISS library calls are oracles as well.  All repository-side
control flow is embedded faithfully from `src/`.
-/

namespace Why

abbrev PyStr := List Char

/-- Python `str.isspace`-style whitespace as used by `\s`, `strip()` and
`split()` on the ASCII range (the corpus fixtures are ASCII). -/
def isPySpace (c : Char) : Bool :=
  c = ' ' || c = '\t' || c = '\n' || c = '\r' || c = '\x0b' || c = '\x0c'

/-- Python `s[a:b]` for `0 ≤ a, b` (clamping semantics). -/
def pySlice (s : PyStr) (a b : ℕ) : PyStr := (s.take b).drop a

/-- Python `s[a:b]` for arbitrary integer indices (negative counts from
the end, out-of-range clamps). -/
def pySliceInt (s : PyStr) (a b : ℤ) : PyStr :=
  let n : ℤ := s.length
  let a' : ℤ := if a < 0 then max 0 (n + a) else min a n
  let b' : ℤ := if b < 0 then max 0 (n + b) else min b n
  (s.take b'.toNat).drop a'.toNat

/-- Python `s.strip()`. -/
def pyStrip (s : PyStr) : PyStr :=
  ((s.dropWhile isPySpace).reverse.dropWhile isPySpace).reverse

/-- Python `s.find(sub, start)` (`none` for `-1`): smallest index
`i ≥ start` at which `sub` occurs in `s`. -/
def pyFind (s sub : PyStr) (start : ℕ) : Option ℕ :=
  (List.range (s.length + 1)).find?
    (fun i => decide (start ≤ i) && sub.isPrefixOf (s.drop i))

/-- Numeric value of a digit string (`int(ds)` for a `\d+` match). -/
def parseNat (ds : PyStr) : ℕ :=
  ds.foldl (fun n c => n * 10 + (c.toNat - '0'.toNat)) 0

/-! ## `src/chunking.py` — sliding-window splitter -/

/-- The word spans of `re.finditer(r'\S+', text)`, starting at absolute
position `i`: maximal runs of non-whitespace characters as half-open
`(start, end)` index pairs. -/
def wordSpans (i : ℕ) : PyStr → List (ℕ × ℕ)
  | [] => []
  | c :: cs =>
    if isPySpace c then wordSpans (i + 1) cs
    else
      let k := (cs.takeWhile (fun d => !isPySpace d)).length
      (i, i + 1 + k) :: wordSpans (i + 1 + k) (cs.drop k)
termination_by l => l.length
decreasing_by
  · simp
  · simp only [List.length_cons, List.length_drop]
    omega

/-- `ws[j][0]` with Python-style list indexing (indices in range at all
call sites). -/
def wsStart (ws : List (ℕ × ℕ)) (j : ℕ) : ℕ := (ws.getD j (0, 0)).1

/-- `ws[j][1]`. -/
def wsEnd (ws : List (ℕ × ℕ)) (j : ℕ) : ℕ := (ws.getD j (0, 0)).2

/-- Inner loop of `_sliding_window_split`: grow `end_w` while the window
`text[ws[start_w][0]:ws[end_w][1]]` stays within `max_tokens`; on
overflow back off one word (unless the window is a single word); when
the words run out return the last word index. -/
def growEnd (tok : PyStr → ℕ) (text : PyStr) (ws : List (ℕ × ℕ))
    (max_tokens start_w : ℕ) (e : ℕ) : ℕ :=
  if e < ws.length then
    let window := pySlice text (wsStart ws start_w) (wsEnd ws e)
    if tok window > max_tokens ∧ e > start_w then e - 1
    else growEnd tok text ws max_tokens start_w (e + 1)
  else e - 1
termination_by ws.length - e

/-- The backward overlap walk of `_sliding_window_split`: the first
`ow ∈ (start_w, end_w]` (counting down from `end_w`) whose suffix window
reaches the overlap budget; `end_w + 1` when none does. -/
def overlapStart (tok : PyStr → ℕ) (text : PyStr) (ws : List (ℕ × ℕ))
    (overlap_tokens start_w end_w : ℕ) (ow : ℕ) : ℕ :=
  if ow > start_w then
    if tok (pySlice text (wsStart ws ow) (wsEnd ws end_w)) ≥ overlap_tokens then ow
    else overlapStart tok text ws overlap_tokens start_w end_w (ow - 1)
  else end_w + 1

/-- One window of `_sliding_window_split`. -/
structure Window where
  text : PyStr
  char_start : ℕ
  char_end : ℕ
deriving DecidableEq, Repr

/-- The `end_w` selected for the window starting at word `start_w`
(the grow loop followed by the dead-code clamp `if end_w < start_w`). -/
def windowEnd (tok : PyStr → ℕ) (text : PyStr) (ws : List (ℕ × ℕ))
    (max_tokens start_w : ℕ) : ℕ :=
  let e0 := growEnd tok text ws max_tokens start_w start_w
  if e0 < start_w then start_w else e0

/-- The next window's start word index: the overlap walk result, forced
to `end_w + 1` whenever it would not advance past `start_w`. -/
def nextStart (tok : PyStr → ℕ) (text : PyStr) (ws : List (ℕ × ℕ))
    (overlap_tokens start_w end_w : ℕ) : ℕ :=
  let ns0 := overlapStart tok text ws overlap_tokens start_w end_w end_w
  if ns0 ≤ start_w then end_w + 1 else ns0

/-- The `while start_w < len(word_spans)` loop of `_sliding_window_split`. -/
def slidingLoop (tok : PyStr → ℕ) (text : PyStr) (base_offset : ℕ)
    (ws : List (ℕ × ℕ)) (max_tokens overlap_tokens : ℕ) (start_w : ℕ) :
    List Window :=
  if start_w < ws.length then
    let end_w := windowEnd tok text ws max_tokens start_w
    let cs := wsStart ws start_w
    let ce := wsEnd ws end_w
    ⟨pySlice text cs ce, base_offset + cs, base_offset + ce⟩ ::
      slidingLoop tok text base_offset ws max_tokens overlap_tokens
        (nextStart tok text ws overlap_tokens start_w end_w)
  else []
termination_by ws.length - start_w
decreasing_by
  have h1 : start_w ≤ windowEnd tok text ws max_tokens start_w := by
    unfold windowEnd
    dsimp only
    split <;> omega
  have h2 : start_w < nextStart tok text ws overlap_tokens start_w
      (windowEnd tok text ws max_tokens start_w) := by
    unfold nextStart
    dsimp only
    split <;> omega
  omega

/-- `_sliding_window_split(text, base_offset, max_tokens, overlap_tokens)`. -/
def sliding_window_split (tok : PyStr → ℕ) (text : PyStr)
    (base_offset max_tokens overlap_tokens : ℕ) : List Window :=
  let ws := wordSpans 0 text
  if ws.isEmpty then []
  else slidingLoop tok text base_offset ws max_tokens overlap_tokens 0

/-! ## `src/chunking.py` — heading detection and structural chunking -/

/-- One entry of `page_data["text_blocks"]` (text plus layout metadata from
the PDF extractor; `font_size` is modelled as an exact rational). -/
structure TextBlock where
  text : PyStr
  font_size : ℚ
  font_flags : ℕ
deriving DecidableEq, Repr

/-- The `page_data` dictionary handed to the chunkers. -/
structure PageData where
  text : PyStr
  doc_id : PyStr
  page : ℕ
  text_blocks : List TextBlock
deriving DecidableEq, Repr

/-- A chunk record as built by `_make_chunk` (the random `chunk_id`
is omitted from the model). -/
structure Chunk where
  doc_id : PyStr
  page : ℕ
  char_start : ℕ
  char_end : ℕ
  heading : Option PyStr
  chunk_text : PyStr
  token_count : ℕ
  chunk_mode : PyStr
deriving DecidableEq, Repr

/-- Prefix match of `\s+\d+` (greedy whitespace run followed by a digit;
no backtracking is needed because `\d` never matches whitespace). -/
def matchSpacesDigits (l : PyStr) : Bool :=
  match l with
  | [] => false
  | c :: _ =>
    isPySpace c &&
      (match l.dropWhile isPySpace with
       | d :: _ => d.isDigit
       | [] => false)

/-- The six literal alternatives of the heading label pattern. -/
def headingLabels : List PyStr :=
  ["Article".toList, "Section".toList, "Chapter".toList, "Part".toList,
   "ARTICLE".toList, "SECTION".toList]

/-- `re.match(r'^(Article|Section|Chapter|Part|ARTICLE|SECTION)\s+\d+', txt)`
succeeds (no two alternatives are prefixes of one another, so ordered
alternation equals `any`). -/
def matchesLabelNum (txt : PyStr) : Bool :=
  headingLabels.any (fun lab => lab.isPrefixOf txt && matchSpacesDigits (txt.drop lab.length))

/-- `re.match(r'^\d+\.\d+', txt)` succeeds. -/
def matchesDottedNum (txt : PyStr) : Bool :=
  match txt with
  | [] => false
  | c :: _ =>
    c.isDigit &&
      (match txt.dropWhile Char.isDigit with
       | '.' :: d :: _ => d.isDigit
       | _ => false)

/-- Insertion into an ascending sorted list of rationals. -/
def insertAsc (x : ℚ) : List ℚ → List ℚ
  | [] => [x]
  | y :: ys => if x < y then x :: y :: ys else y :: insertAsc x ys

/-- Python's `sorted` on a list of rationals (any sort agrees on a list
of values over a total order; insertion sort keeps the kernel able to
evaluate it). -/
def pySorted (l : List ℚ) : List ℚ :=
  l.foldl (fun acc x => insertAsc x acc) []

/-- `detect_headings(text_blocks)`: median font size over non-empty
blocks, then the four-way disjunction per block. -/
def detect_headings (text_blocks : List TextBlock) : List PyStr :=
  if text_blocks.isEmpty then []
  else
    let sizes := (text_blocks.filter (fun b => !(pyStrip b.text).isEmpty)).map (·.font_size)
    if sizes.isEmpty then []
    else
      let median_size := (pySorted sizes).getD (sizes.length / 2) 0
      text_blocks.filterMap (fun b =>
        let txt := pyStrip b.text
        if txt.isEmpty then none
        else
          let is_heading :=
            decide (b.font_size > median_size * (115 / 100 : ℚ)) ||
            (b.font_flags.testBit 4 && decide (b.font_size ≥ median_size)) ||
            matchesLabelNum txt ||
            matchesDottedNum txt
          if is_heading then some txt else none)

/-- The heading-location loop of `structural_chunk`: find each heading
at or after `search_from`; found headings advance the cursor past their
end, unlocatable headings are skipped with the cursor unchanged. -/
def locateHeadings (page_text : PyStr) : List PyStr → ℕ → List (ℕ × PyStr)
  | [], _ => []
  | h :: rest, search_from =>
    match pyFind page_text h search_from with
    | some idx => (idx, h) :: locateHeadings page_text rest (idx + h.length)
    | none => locateHeadings page_text rest search_from

/-- One section of a page. -/
structure Sec where
  heading : Option PyStr
  char_start : ℕ
  char_end : ℕ
deriving DecidableEq, Repr

/-- One section per located heading, ending at the next heading's
position (or the page end). -/
def headedSections (page_text : PyStr) : List (ℕ × PyStr) → List Sec
  | [] => []
  | (pos, h) :: rest =>
    let end_pos := match rest with
      | (p2, _) :: _ => p2
      | [] => page_text.length
    ⟨some h, pos, end_pos⟩ :: headedSections page_text rest

/-- The section list of `structural_chunk`: an implicit leading section
when text precedes the first heading, else one section per heading; the
whole page if no heading was located. -/
def buildSections (page_text : PyStr) (heading_positions : List (ℕ × PyStr)) : List Sec :=
  match heading_positions with
  | [] => [⟨none, 0, page_text.length⟩]
  | (first_pos, _) :: _ =>
    let lead :=
      if first_pos > 0 ∧ ¬(pyStrip (pySlice page_text 0 first_pos)).isEmpty
      then [(⟨none, 0, first_pos⟩ : Sec)] else []
    lead ++ headedSections page_text heading_positions

/-- `_trim_offsets(text, base_offset)`: the stripped text together with
the adjusted half-open offsets. -/
def trim_offsets (text : PyStr) (base_offset : ℕ) : PyStr × ℕ × ℕ :=
  let lstrip := text.length - (text.dropWhile isPySpace).length
  let stripped := pyStrip text
  let new_start := base_offset + lstrip
  (stripped, new_start, new_start + stripped.length)

/-- The per-section chunk emission of `structural_chunk`. -/
def sectionChunks (tok : PyStr → ℕ) (page_text doc_id : PyStr) (page_num : ℕ)
    (max_tokens overlap_tokens : ℕ) (sec : Sec) : List Chunk :=
  let raw_text := pySlice page_text sec.char_start sec.char_end
  let t := trim_offsets raw_text sec.char_start
  let text := t.1
  let cs := t.2.1
  let ce := t.2.2
  if text.isEmpty then []
  else
    let tokens := tok text
    if tokens ≤ max_tokens then
      [⟨doc_id, page_num, cs, ce, sec.heading, text, tokens, "structural".toList⟩]
    else
      (sliding_window_split tok text cs max_tokens overlap_tokens).map
        (fun sub => ⟨doc_id, page_num, sub.char_start, sub.char_end,
                     sec.heading, sub.text, tok sub.text, "structural".toList⟩)

/-- `structural_chunk(page_data, max_tokens, overlap_tokens)` with the
token counter as an oracle parameter. -/
def structural_chunk (tok : PyStr → ℕ) (page_data : PageData)
    (max_tokens overlap_tokens : ℕ) : List Chunk :=
  let page_text := page_data.text
  if (pyStrip page_text).isEmpty then []
  else
    let heading_texts := detect_headings page_data.text_blocks
    let heading_positions := locateHeadings page_text heading_texts 0
    let sections := buildSections page_text heading_positions
    sections.flatMap
      (sectionChunks tok page_text page_data.doc_id page_data.page max_tokens overlap_tokens)

/-! ## `src/chunking.py` — semantic chunking -/

/-- `re.split(r'(?<=[.!?])\s+|\n{2,}', text)`: raw pieces before the
strip-and-filter.  The lookbehind inspects the previous original
character; after a separator the previous character is whitespace and
can never satisfy `[.!?]`, so a space placeholder is passed. -/
def reSplitPieces : PyStr → Option Char → PyStr → List PyStr
  | [], _, acc => [acc.reverse]
  | c :: rest, prev, acc =>
    if (prev == some '.' || prev == some '!' || prev == some '?') && isPySpace c then
      acc.reverse :: reSplitPieces (rest.dropWhile isPySpace) (some ' ') []
    else if c = '\n' && rest.head? = some '\n' then
      acc.reverse :: reSplitPieces ((c :: rest).dropWhile (fun d => d = '\n')) (some '\n') []
    else
      reSplitPieces rest (some c) (c :: acc)
termination_by l _ _ => l.length
decreasing_by
  · have := (List.dropWhile_sublist (l := rest) isPySpace).length_le
    simp only [List.length_cons]
    omega
  · rename_i h2
    have hc : (c :: rest).dropWhile (fun d => decide (d = '\n')) =
        rest.dropWhile (fun d => decide (d = '\n')) := by
      simp only [Bool.and_eq_true, decide_eq_true_eq] at h2
      simp [List.dropWhile, h2.1]
    have := (List.dropWhile_sublist (l := rest) (fun d => decide (d = '\n'))).length_le
    simp only [List.length_cons, hc]
    omega
  · simp

/-- `_split_sentences(text)`. -/
def split_sentences (text : PyStr) : List PyStr :=
  ((reSplitPieces text none []).map pyStrip).filter (fun p => !p.isEmpty)

/-- The sentence-offset recovery loop of `semantic_chunk`: locate each
sentence at or after the cursor, falling back to the cursor itself on a
miss; the cursor advances to the end of the located span. -/
def sentenceSpans (page_text : PyStr) : List PyStr → ℕ → List (ℕ × ℕ)
  | [], _ => []
  | sent :: rest, cursor =>
    let idx := match pyFind page_text sent cursor with
      | some i => i
      | none => cursor
    (idx, idx + sent.length) :: sentenceSpans page_text rest (idx + sent.length)

/-- The similarity list of `semantic_chunk`: cosine similarity of each
adjacent embedding pair (`embed` and `cos` are the external services). -/
def adjacentSims (embed : List PyStr → List (List ℚ)) (cos : List ℚ → List ℚ → ℚ)
    (sentences : List PyStr) : List ℚ :=
  let embeddings := embed sentences
  (List.range (embeddings.length - 1)).map
    (fun i => cos (embeddings.getD i []) (embeddings.getD (i + 1) []))

/-- The grouping loop: start a new sentence group whenever the adjacent
similarity drops below the threshold. -/
def buildGroupsAux (threshold : ℚ) : List ℚ → ℕ → List ℕ → List (List ℕ)
  | [], _, cur => [cur.reverse]
  | s :: rest, i, cur =>
    if s < threshold then cur.reverse :: buildGroupsAux threshold rest (i + 1) [i + 1]
    else buildGroupsAux threshold rest (i + 1) ((i + 1) :: cur)

/-- `groups` of `semantic_chunk`. -/
def buildGroups (sims : List ℚ) (threshold : ℚ) : List (List ℕ) :=
  buildGroupsAux threshold sims 0 [0]

/-- The tiny-group merge: a group of fewer than two sentences is folded
into the preceding group (the first group always stands). -/
def mergeTiny : List (List ℕ) → List (List ℕ) → List (List ℕ)
  | merged, [] => merged.reverse
  | [], g :: rest => mergeTiny [g] rest
  | last :: ms, g :: rest =>
    if g.length < 2 then mergeTiny ((last ++ g) :: ms) rest
    else mergeTiny (g :: last :: ms) rest

/-- The per-group chunk emission of `semantic_chunk`. -/
def groupChunks (tok : PyStr → ℕ) (page_text doc_id : PyStr) (page_num : ℕ)
    (spans : List (ℕ × ℕ)) (max_tokens : ℕ) (group : List ℕ) : List Chunk :=
  let cs := (spans.getD (group.headD 0) (0, 0)).1
  let ce := (spans.getD ((group.getLast?).getD 0) (0, 0)).2
  let chunk_text := pySlice page_text cs ce
  let tokens := tok chunk_text
  if tokens > max_tokens then
    (sliding_window_split tok chunk_text cs max_tokens 50).map
      (fun sub => ⟨doc_id, page_num, sub.char_start, sub.char_end,
                   none, sub.text, tok sub.text, "semantic".toList⟩)
  else
    [⟨doc_id, page_num, cs, ce, none, chunk_text, tokens, "semantic".toList⟩]

/-- `semantic_chunk(page_data, similarity_threshold, max_tokens)` with
the token counter and the embedding service as oracle parameters. -/
def semantic_chunk (embed : List PyStr → List (List ℚ)) (cos : List ℚ → List ℚ → ℚ)
    (tok : PyStr → ℕ) (page_data : PageData)
    (similarity_threshold : ℚ) (max_tokens : ℕ) : List Chunk :=
  let page_text := page_data.text
  if (pyStrip page_text).isEmpty then []
  else
    let sentences := split_sentences page_text
    if sentences.isEmpty then []
    else
      let spans := sentenceSpans page_text sentences 0
      if sentences.length = 1 then
        let sp := spans.getD 0 (0, 0)
        let txt := pySlice page_text sp.1 sp.2
        [⟨page_data.doc_id, page_data.page, sp.1, sp.2, none, txt, tok txt, "semantic".toList⟩]
      else
        let sims := adjacentSims embed cos sentences
        let merged := mergeTiny [] (buildGroups sims similarity_threshold)
        merged.flatMap
          (groupChunks tok page_text page_data.doc_id page_data.page spans max_tokens)

/-! ## `src/citations.py` — citation extraction and validation -/

/-- A parsed citation marker. -/
structure Citation where
  doc_id : PyStr
  page : ℕ
  char_start : ℕ
  char_end : ℕ
  raw : PyStr
deriving DecidableEq, Repr

/-- Attempt the citation pattern
`\[([^|\]]+)\|\s*(\d+)\s*\|\s*(\d+):(\d+)\]` at a position whose
opening `[` has already been consumed; `r1` is the remainder.  Returns
the raw `doc_id` group, the three numeric fields and the number of
characters consumed after the `[`.  Each greedy sub-match is followed
by a literal the sub-pattern's class can never match, so the regex
engine's backtracking cannot produce any other match. -/
def matchCitationAfterBracket (r1 : PyStr) : Option (PyStr × ℕ × ℕ × ℕ × ℕ) :=
  let g1 := r1.takeWhile (fun c => !(c = '|' || c = ']'))
  if g1.isEmpty then none else
  let r2' := r1.drop g1.length
  if r2'.head? ≠ some '|' then none else
  let r2 := r2'.tail
  let w1 := r2.takeWhile isPySpace
  let d1 := (r2.drop w1.length).takeWhile Char.isDigit
  if d1.isEmpty then none else
  let r3 := r2.drop (w1.length + d1.length)
  let w2 := r3.takeWhile isPySpace
  let r4' := r3.drop w2.length
  if r4'.head? ≠ some '|' then none else
  let r4 := r4'.tail
  let w3 := r4.takeWhile isPySpace
  let d2 := (r4.drop w3.length).takeWhile Char.isDigit
  if d2.isEmpty then none else
  let r5' := r4.drop (w3.length + d2.length)
  if r5'.head? ≠ some ':' then none else
  let r5 := r5'.tail
  let d3 := r5.takeWhile Char.isDigit
  if d3.isEmpty then none else
  if (r5.drop d3.length).head? ≠ some ']' then none else
  some (g1, parseNat d1, parseNat d2, parseNat d3,
    g1.length + 1 + w1.length + d1.length + w2.length + 1 +
      w3.length + d2.length + 1 + d3.length + 1)

/-- The `re.finditer` scan of `extract_citations`: try the pattern at
each position left to right, skipping over matched regions. -/
def extractAux : PyStr → List Citation
  | [] => []
  | c :: r1 =>
    if c = '[' then
      match matchCitationAfterBracket r1 with
      | some (g1, pg, a, b, n) =>
        ⟨pyStrip g1, pg, a, b, '[' :: r1.take n⟩ :: extractAux (r1.drop n)
      | none => extractAux r1
    else extractAux r1
termination_by l => l.length
decreasing_by
  · simp only [List.length_cons, List.length_drop]
    omega
  · simp
  · simp

/-- `extract_citations(answer_text)`. -/
def extract_citations (answer_text : PyStr) : List Citation :=
  extractAux answer_text

/-- A chunk row as returned by `get_all_chunks` (fields the validator
reads). -/
structure ChunkRow where
  doc_id : PyStr
  page : ℕ
  char_start : ℕ
  char_end : ℕ
  chunk_text : PyStr
deriving DecidableEq, Repr

/-- The persistent store as the validator sees it: `get_page_text` as an
association list keyed by `(doc_id, page)` and `get_all_chunks` as an
ordered list.  The module-level `PAGE_CACHE` is modelled as transparent
(a cache hit returns exactly the stored text). -/
structure Store where
  pages : List ((PyStr × ℕ) × PyStr)
  chunks : List ChunkRow
deriving DecidableEq, Repr

/-- `get_page_text(conn, doc_id, page)`. -/
def get_page_text (st : Store) (doc : PyStr) (page : ℕ) : Option PyStr :=
  (st.pages.find? (fun e => e.1 == (doc, page))).map (·.2)

/-- The result dictionary of `validate_citation`. -/
structure ValidationResult where
  valid : Bool
  cited_text : Option PyStr
deriving DecidableEq, Repr

/-- The exact-offset page-text path of `validate_citation`: the snippet
when a stored page exists, `0 ≤ char_start < char_end ≤ len(page_text)`
holds and the slice is non-whitespace (`0 ≤ char_start` is inherent:
extracted offsets are non-negative). -/
def exactSlice (cit : Citation) (st : Store) : Option PyStr :=
  match get_page_text st cit.doc_id cit.page with
  | none => none
  | some page_text =>
    if cit.char_start < cit.char_end ∧ cit.char_end ≤ page_text.length then
      let snippet := pySlice page_text cit.char_start cit.char_end
      if (pyStrip snippet).isEmpty then none else some snippet
    else none

/-- The chunk-containment fallback loop of `validate_citation`: scan
the stored chunks in order for one of the cited `(doc_id, page)` whose
range contains the citation's range, and slice its text by the offset
delta. -/
def chunkScan (cit : Citation) (st : Store) : ValidationResult :=
  match st.chunks.find? (fun ch =>
      ch.doc_id == cit.doc_id && ch.page == cit.page &&
      decide (ch.char_start ≤ cit.char_start) && decide (cit.char_end ≤ ch.char_end)) with
  | some ch =>
    let offset : ℤ := (cit.char_start : ℤ) - (ch.char_start : ℤ)
    let length : ℤ := (cit.char_end : ℤ) - (cit.char_start : ℤ)
    ⟨true, some (pySliceInt ch.chunk_text offset (offset + length))⟩
  | none => ⟨false, none⟩

/-- `validate_citation(citation, conn)`: the exact-offset page-text path
followed by the chunk-containment fallback. -/
def validate_citation (cit : Citation) (st : Store) : ValidationResult :=
  match exactSlice cit st with
  | some snippet => ⟨true, some snippet⟩
  | none => chunkScan cit st

/-! ## `src/retriever.py` — dense index and rank fusion -/

/-- A chunk record as the dense index build sees it (`chunk_id` plus the
optional embedding; `if c.get("embedding")` is falsy for a missing *and*
for an empty embedding). -/
structure DenseChunk where
  chunk_id : PyStr
  embedding : Option (List ℚ)
deriving DecidableEq, Repr

/-- `DenseRetriever` state: `self.index` (`None` before any successful
build) and `self.chunk_ids`.  The FAISS index object is modelled by the
list of vectors handed to `index.add`. -/
structure DenseState where
  index : Option (List (List ℚ))
  chunk_ids : List PyStr
deriving DecidableEq, Repr

/-- A fresh `DenseRetriever()`. -/
def denseInit : DenseState := ⟨none, []⟩

/-- Truthiness of `c.get("embedding")`. -/
def hasEmbedding (c : DenseChunk) : Bool :=
  match c.embedding with
  | some v => !v.isEmpty
  | none => false

/-- `DenseRetriever.build(chunks)`: collect the chunks that carry an
embedding; when none do, return leaving `self.index` untouched (no
error); otherwise install the normalized vectors (`faiss.normalize_L2`
is the oracle `normalize`). -/
def DenseRetriever_build (normalize : List (List ℚ) → List (List ℚ))
    (st : DenseState) (chunks : List DenseChunk) : DenseState :=
  let valid := chunks.filter hasEmbedding
  let embeddings := valid.filterMap (·.embedding)
  let ids := valid.map (·.chunk_id)
  if embeddings.isEmpty then ⟨st.index, ids⟩
  else ⟨some (normalize embeddings), ids⟩

/-- One search hit. -/
structure SearchResult where
  chunk_id : PyStr
  score : ℚ
  rank : ℕ
deriving DecidableEq, Repr

/-- `DenseRetriever.search(query, top_k)`: `self.index.search` on a
`None` index raises `AttributeError` (modelled as `Except.error`);
otherwise the FAISS call is the oracle `faissSearch` returning
`(score, idx)` rows (`idx = -1` rows are skipped, the 1-based `rank`
enumerates all rows). -/
def DenseRetriever_search (faissSearch : List (List ℚ) → List (ℚ × ℤ))
    (st : DenseState) : Except PyStr (List SearchResult) :=
  match st.index with
  | none => .error "AttributeError".toList
  | some vecs =>
    .ok ((faissSearch vecs).enum.filterMap (fun p =>
      if p.2.2 = -1 then none
      else some ⟨st.chunk_ids.getD p.2.2.toNat [], p.2.1, p.1 + 1⟩))

/-- One entry of a ranked input list to the fusion. -/
structure RankedItem where
  chunk_id : PyStr
  rank : ℕ
deriving DecidableEq, Repr

/-- One entry of the fused output. -/
structure FusedItem where
  chunk_id : PyStr
  rrf_score : ℚ
  rank : ℕ
deriving DecidableEq, Repr

/-- `rrf_scores.get(cid, 0.0) + v` on an insertion-ordered dictionary
modelled as an association list. -/
def dictAdd (d : List (PyStr × ℚ)) (cid : PyStr) (v : ℚ) : List (PyStr × ℚ) :=
  if d.any (fun e => e.1 == cid) then
    d.map (fun e => if e.1 == cid then (e.1, e.2 + v) else e)
  else d ++ [(cid, v)]

/-- Dictionary lookup with default `0.0`. -/
def dictGet (d : List (PyStr × ℚ)) (cid : PyStr) : ℚ :=
  ((d.find? (fun e => e.1 == cid)).map (·.2)).getD 0

/-- The score-accumulation loops of `reciprocal_rank_fusion`. -/
def rrfScores (result_lists : List (List RankedItem)) (k : ℕ) : List (PyStr × ℚ) :=
  result_lists.foldl
    (fun d results => results.foldl
      (fun d item => dictAdd d item.chunk_id (1 / ((k : ℚ) + (item.rank : ℚ)))) d) []

/-- Stable insertion of a scored id into a descending-sorted list: the
new entry goes after every existing entry of greater *or equal* score,
exactly as Python's stable `sorted(..., reverse=True)` places it. -/
def insertDesc (x : PyStr × ℚ) : List (PyStr × ℚ) → List (PyStr × ℚ)
  | [] => [x]
  | y :: ys => if y.2 < x.2 then x :: y :: ys else y :: insertDesc x ys

/-- Python's stable `sorted(items, key=score, reverse=True)` as a
structurally recursive insertion sort. -/
def sortDescStable (l : List (PyStr × ℚ)) : List (PyStr × ℚ) :=
  l.foldl (fun acc x => insertDesc x acc) []

/-- `reciprocal_rank_fusion(result_lists, k)`: sum `1/(k + rank)` per
chunk id, sort by descending score (Python's stable sort) and re-rank
1..N. -/
def reciprocal_rank_fusion (result_lists : List (List RankedItem)) (k : ℕ) :
    List FusedItem :=
  let ranked := sortDescStable (rrfScores result_lists k)
  ranked.enum.map (fun p => ⟨p.2.1, p.2.2, p.1 + 1⟩)

/-! ## Derived notions used by the specification statements -/

/-- The exact-offset page-text path of `validate_citation` succeeds:
the page is stored, the offsets satisfy
`0 ≤ char_start < char_end ≤ len(page_text)` and the slice is
non-whitespace. -/
def exactPathOk (cit : Citation) (st : Store) : Prop :=
  ∃ pt, get_page_text st cit.doc_id cit.page = some pt ∧
    cit.char_start < cit.char_end ∧ cit.char_end ≤ pt.length ∧
    (pyStrip (pySlice pt cit.char_start cit.char_end)).isEmpty = false

/-- Some stored chunk with the citation's `(doc_id, page)` fully
contains the citation's character range. -/
def chunkFallbackOk (cit : Citation) (st : Store) : Prop :=
  ∃ ch ∈ st.chunks, ch.doc_id = cit.doc_id ∧ ch.page = cit.page ∧
    ch.char_start ≤ cit.char_start ∧ cit.char_end ≤ ch.char_end

/-- The forward search position (`search_from`) after the heading
location loop of `structural_chunk` has processed a heading list. -/
def locateCursor (page_text : PyStr) : List PyStr → ℕ → ℕ
  | [], s => s
  | h :: rest, s =>
    match pyFind page_text h s with
    | some idx => locateCursor page_text rest (idx + h.length)
    | none => locateCursor page_text rest s

/-- A citation marker `[doc | page | start:end]` with explicit
whitespace slots: `w1 doc w2` before the first pipe, `w3 d1 w4` the page
field, `w5 d2` the char-start field, `d3` the char-end field. -/
def citationMarker (w1 doc w2 w3 d1 w4 w5 d2 d3 : PyStr) : PyStr :=
  '[' :: (w1 ++ doc ++ w2) ++ '|' :: (w3 ++ d1 ++ w4) ++ '|' :: (w5 ++ d2) ++
    ':' :: d3 ++ [']']

/-- A text fragment is a single indivisible word: non-empty and free of
whitespace. -/
def isSingleWord (s : PyStr) : Prop :=
  s ≠ [] ∧ ∀ c ∈ s, isPySpace c = false

/-- `gs` is a list of non-empty blocks of consecutive indices that
together enumerate `[a, b)` in order. -/
def RangeBlocks (a : ℕ) : List (List ℕ) → ℕ → Prop
  | [], b => a = b
  | g :: gs, b => ∃ k, 0 < k ∧ g = List.range' a k ∧ RangeBlocks (a + k) gs b

/-! # Theorems -/

/-! ## C7 — heading label detection is case-sensitive -/

/-- Heading detection over a single block: the median is the block's
own font size. -/
theorem detect_headings_single (b : TextBlock)
    (hne : (pyStrip b.text).isEmpty = false) :
    detect_headings [b] =
      if decide (b.font_size > b.font_size * (115 / 100 : ℚ)) ||
          (b.font_flags.testBit 4 && decide (b.font_size ≥ b.font_size)) ||
          matchesLabelNum (pyStrip b.text) || matchesDottedNum (pyStrip b.text)
        then [pyStrip b.text] else [] := by
  unfold detect_headings
  have hne' : pyStrip b.text ≠ [] := fun h => by simp [h] at hne
  simp [hne, hne', pySorted, insertAsc, List.filterMap_cons]
  split <;> rename_i v heq
  · split at heq
    · cases heq
    · rename_i hnc
      rw [if_neg hnc]
  · split at heq
    · rename_i hC
      cases heq
      simp only [hC, if_true]
    · cases heq

/-- C7, counterexample: the claim says the label match is
case-insensitive, so the lowercase block text `"chapter 1"` (median
font size, no bold flag) should be detected as a heading; the code's
pattern lists only `Article|Section|Chapter|Part|ARTICLE|SECTION`, so
the block yields no heading, while the capitalized `"Chapter 1"` does. -/
theorem detect_headings_case_counterexample :
    detect_headings [⟨"chapter 1".toList, 10, 0⟩] = [] ∧
    detect_headings [⟨"Chapter 1".toList, 10, 0⟩] = ["Chapter 1".toList] := by
  have hq : decide ((10 : ℚ) > 10 * (115 / 100)) = false := by norm_num
  constructor
  · rw [detect_headings_single ⟨"chapter 1".toList, 10, 0⟩ (by decide)]
    rw [hq]
    decide
  · rw [detect_headings_single ⟨"Chapter 1".toList, 10, 0⟩ (by decide)]
    rw [hq]
    decide

/-- C7, amended: heading detection flags every non-blank span whose
stripped text matches one of the exact-case leading labels `Article`,
`Section`, `Chapter`, `Part`, `ARTICLE`, `SECTION` followed by
whitespace and a digit; the match is case-sensitive, not
case-insensitive. -/
theorem detect_headings_label_detected (tbs : List TextBlock) (b : TextBlock)
    (hb : b ∈ tbs) (hne : (pyStrip b.text).isEmpty = false)
    (hlab : matchesLabelNum (pyStrip b.text) = true) :
    pyStrip b.text ∈ detect_headings tbs := by
  have htb : tbs.isEmpty = false := by
    cases tbs with
    | nil => cases hb
    | cons x xs => rfl
  have hbfilter : b ∈ tbs.filter (fun bl => !(pyStrip bl.text).isEmpty) :=
    List.mem_filter.mpr ⟨hb, by simp [hne]⟩
  have hsz : b.font_size ∈
      (tbs.filter (fun bl => !(pyStrip bl.text).isEmpty)).map (·.font_size) :=
    List.mem_map_of_mem _ hbfilter
  have hszne :
      ((tbs.filter (fun bl => !(pyStrip bl.text).isEmpty)).map (·.font_size)).isEmpty
        = false := by
    cases hmap :
        (tbs.filter (fun bl => !(pyStrip bl.text).isEmpty)).map (·.font_size) with
    | nil => rw [hmap] at hsz; cases hsz
    | cons x xs => rfl
  unfold detect_headings
  rw [htb]
  simp only [Bool.false_eq_true, if_false, hszne]
  apply List.mem_filterMap.mpr
  refine ⟨b, hb, ?_⟩
  simp only [hne, hlab, Bool.false_eq_true, if_false, Bool.or_true, Bool.true_or,
    if_true]

/-- C7, witness for the amended theorem at a concrete block list. -/
theorem detect_headings_label_detected_witness :
    ("Chapter 7 x".toList ∈
      detect_headings [⟨"  Chapter 7 x ".toList, 10, 0⟩, ⟨"body".toList, 10, 0⟩]) :=
  detect_headings_label_detected _ ⟨"  Chapter 7 x ".toList, 10, 0⟩
    (by simp) (by decide) (by decide)

/-! ## C4 — dense search on an empty index raises -/

/-- C4, counterexample: building the dense index from chunks that have
no embeddings leaves `self.index = None`, and a subsequent search then
raises `AttributeError` (`None.search`), instead of returning no
results as the claim states. -/
theorem dense_search_empty_counterexample :
    DenseRetriever_search (fun _ => [])
        (DenseRetriever_build id denseInit [⟨"c1".toList, none⟩]) =
      Except.error "AttributeError".toList := by
  rfl

/-- C4, amended: when no chunk passed to the dense-index build has an
embedding, the build leaves the index empty (`None`) without error and
clears the id list; a subsequent dense search against that empty index
raises `AttributeError` rather than returning results. -/
theorem dense_build_empty_search_raises
    (normalize : List (List ℚ) → List (List ℚ))
    (faissSearch : List (List ℚ) → List (ℚ × ℤ))
    (chunks : List DenseChunk)
    (hnone : ∀ c ∈ chunks, hasEmbedding c = false) :
    DenseRetriever_build normalize denseInit chunks = denseInit ∧
    DenseRetriever_search faissSearch (DenseRetriever_build normalize denseInit chunks) =
      Except.error "AttributeError".toList := by
  have hfilter : chunks.filter hasEmbedding = [] :=
    List.filter_eq_nil_iff.mpr (fun c hc => by simp [hnone c hc])
  have hbuild : DenseRetriever_build normalize denseInit chunks = denseInit := by
    unfold DenseRetriever_build
    rw [hfilter]
    rfl
  exact ⟨hbuild, by rw [hbuild]; rfl⟩

/-- C4, witness for the amended theorem at a concrete chunk list. -/
theorem dense_build_empty_search_raises_witness :
    DenseRetriever_build id denseInit [⟨"c1".toList, none⟩, ⟨"c2".toList, some []⟩]
        = denseInit ∧
    DenseRetriever_search (fun _ => [])
        (DenseRetriever_build id denseInit [⟨"c1".toList, none⟩, ⟨"c2".toList, some []⟩]) =
      Except.error "AttributeError".toList :=
  dense_build_empty_search_raises id (fun _ => [])
    [⟨"c1".toList, none⟩, ⟨"c2".toList, some []⟩] (by decide)

/-! ## C10 — unlocatable headings are silently skipped -/

/-- C10: a detected heading whose text is not found in the page text at
or after the current forward search position contributes no heading
position (hence no section boundary) and leaves the search position
unchanged: the location pass behaves exactly as if the heading were
absent, and the chunker never fails because of it. -/
theorem locateHeadings_skips_unlocatable (page_text h : PyStr)
    (hs1 hs2 : List PyStr) (s : ℕ)
    (hnf : pyFind page_text h (locateCursor page_text hs1 s) = none) :
    locateHeadings page_text (hs1 ++ h :: hs2) s =
      locateHeadings page_text (hs1 ++ hs2) s ∧
    locateCursor page_text (hs1 ++ h :: hs2) s =
      locateCursor page_text (hs1 ++ hs2) s := by
  induction hs1 generalizing s with
  | nil =>
    have hnf' : pyFind page_text h s = none := by
      simpa only [locateCursor] using hnf
    constructor
    · simp only [List.nil_append, locateHeadings, hnf']
    · simp only [List.nil_append, locateCursor, hnf']
  | cons h1 rest ih =>
    cases hf : pyFind page_text h1 s with
    | some idx =>
      have hnf' : pyFind page_text h
          (locateCursor page_text rest (idx + h1.length)) = none := by
        simpa only [locateCursor, hf] using hnf
      constructor
      · simp only [List.cons_append, locateHeadings, hf, List.append_eq]
        rw [(ih _ hnf').1]
      · simp only [List.cons_append, locateCursor, hf]
        exact (ih _ hnf').2
    | none =>
      have hnf' : pyFind page_text h (locateCursor page_text rest s) = none := by
        simpa only [locateCursor, hf] using hnf
      constructor
      · simp only [List.cons_append, locateHeadings, hf]
        exact (ih _ hnf').1
      · simp only [List.cons_append, locateCursor, hf]
        exact (ih _ hnf').2

/-! ## C2 — the chunk fallback can validate out-of-range citations -/

/-- C2, counterexample: the claim says a citation whose offsets are out
of range (`char_start = 5 > char_end = 3`) or whose slice is
whitespace-only (offsets `5:6` over `"hello world"`) is marked invalid;
with a stored chunk covering `[0, 11)` of the page, the fallback marks
both citations *valid*. -/
theorem validate_citation_counterexample :
    (validate_citation ⟨"d".toList, 1, 5, 3, []⟩
        ⟨[(("d".toList, 1), "hello world".toList)],
         [⟨"d".toList, 1, 0, 11, "hello world".toList⟩]⟩).valid = true ∧
    (validate_citation ⟨"d".toList, 1, 5, 6, []⟩
        ⟨[(("d".toList, 1), "hello world".toList)],
         [⟨"d".toList, 1, 0, 11, "hello world".toList⟩]⟩).valid = true := by
  constructor <;> decide

/-- Unfolding of the exact-offset path as a proposition. -/
theorem exactSlice_eq_none_iff (cit : Citation) (st : Store) :
    exactSlice cit st = none ↔ ¬ exactPathOk cit st := by
  unfold exactSlice exactPathOk
  cases hpt : get_page_text st cit.doc_id cit.page with
  | none =>
    simp
  | some pt =>
    by_cases hrange : cit.char_start < cit.char_end ∧ cit.char_end ≤ pt.length
    · by_cases hblank :
          (pyStrip (pySlice pt cit.char_start cit.char_end)).isEmpty = true
      · simp [hrange, hblank]
        exact List.isEmpty_iff.mp hblank
      · simp only [Bool.not_eq_true] at hblank
        simp [hrange, hblank]
        exact fun h => by simp [h] at hblank
    · simp [hrange]
      tauto

/-- Unfolding of the fallback path's verdict as a proposition. -/
theorem chunkScan_valid_iff (cit : Citation) (st : Store) :
    (chunkScan cit st).valid = true ↔ chunkFallbackOk cit st := by
  unfold chunkScan chunkFallbackOk
  cases hfind : st.chunks.find? (fun ch =>
      ch.doc_id == cit.doc_id && ch.page == cit.page &&
      decide (ch.char_start ≤ cit.char_start) && decide (cit.char_end ≤ ch.char_end)) with
  | none =>
    rw [List.find?_eq_none] at hfind
    simp only [Bool.false_eq_true, false_iff]
    rintro ⟨ch, hch, h1, h2, h3, h4⟩
    have := hfind ch hch
    simp only [Bool.and_eq_true, beq_iff_eq, decide_eq_true_eq, not_and] at this
    tauto
  | some ch =>
    have hmem := List.mem_of_find?_eq_some hfind
    have hpred := List.find?_some hfind
    simp only [Bool.and_eq_true, beq_iff_eq, decide_eq_true_eq] at hpred
    constructor
    · intro _
      exact ⟨ch, hmem, hpred.1.1.1, hpred.1.1.2, hpred.1.2, hpred.2⟩
    · intro _
      rfl

/-- C2, amended: `validate_citation` never raises (it is a total
function into a result record), but a citation with out-of-range
offsets or a whitespace-only slice is marked invalid only when,
additionally, no stored chunk with the cited `(doc_id, page)` fully
contains `[char_start, char_end)`; when such a chunk exists the
citation is marked valid by the fallback. -/
theorem validate_citation_invalid_iff (cit : Citation) (st : Store) :
    (validate_citation cit st).valid = false ↔
      ¬ exactPathOk cit st ∧ ¬ chunkFallbackOk cit st := by
  unfold validate_citation
  cases hex : exactSlice cit st with
  | some snippet =>
    have : exactPathOk cit st := by
      by_contra hno
      rw [← exactSlice_eq_none_iff] at hno
      rw [hno] at hex
      cases hex
    simp [this]
  | none =>
    rw [exactSlice_eq_none_iff] at hex
    have hval : (chunkScan cit st).valid = false ↔ ¬ chunkFallbackOk cit st := by
      rw [← chunkScan_valid_iff]
      cases (chunkScan cit st).valid <;> simp
    simp [hex, hval]

/-! ## Slice and word-span infrastructure for the chunkers -/

theorem drop_take_swap {α : Type} (m n : ℕ) (l : List α) :
    (l.take n).drop m = (l.drop m).take (n - m) := by
  by_cases h : m ≤ n
  · rw [List.take_drop]
    have : m + (n - m) = n := by omega
    rw [this]
  · have h1 : (l.take n).length ≤ m :=
      le_trans (List.length_take_le n l) (by omega)
    rw [List.drop_eq_nil_of_le h1]
    have : n - m = 0 := by omega
    rw [this, List.take_zero]

theorem pySlice_eq (s : PyStr) (a b : ℕ) :
    pySlice s a b = (s.drop a).take (b - a) := drop_take_swap a b s

theorem pySlice_length (s : PyStr) (a b : ℕ) :
    (pySlice s a b).length = min b s.length - a := by
  unfold pySlice
  rw [List.length_drop, List.length_take]

theorem pySlice_self (s : PyStr) (a b : ℕ) :
    pySlice s a (a + (pySlice s a b).length) = pySlice s a b := by
  rw [pySlice_eq s a b, pySlice_eq s a, Nat.add_sub_cancel_left, List.length_take]
  by_cases h : b - a ≤ (s.drop a).length
  · rw [min_eq_left h]
  · rw [min_eq_right (by omega), List.take_length,
      List.take_of_length_le (by omega)]

theorem pySlice_compose (page t : PyStr) (P a b : ℕ)
    (ht : t = pySlice page P (P + t.length)) (hb : b ≤ t.length) :
    pySlice t a b = pySlice page (P + a) (P + b) := by
  rw [pySlice_eq t, pySlice_eq page]
  have h1 : P + b - (P + a) = b - a := by omega
  rw [h1]
  conv_lhs => rw [ht, pySlice_eq, Nat.add_sub_cancel_left]
  rw [drop_take_swap, List.drop_drop, List.take_take, Nat.add_comm P a]
  have h2 : min (b - a) (t.length - a) = b - a := by omega
  rw [h2]

theorem take_takeWhile_len {p : Char → Bool} (l : PyStr) :
    l.take ((l.takeWhile p).length) = l.takeWhile p := by
  induction l with
  | nil => rfl
  | cons c l ih =>
    cases hc : p c with
    | true =>
      rw [List.takeWhile_cons_of_pos hc, List.length_cons, List.take_succ_cons, ih]
    | false =>
      rw [List.takeWhile_cons_of_neg (by simp [hc]), List.length_nil, List.take_zero]

theorem getD_lt {α : Type} (l : List α) (d : α) (j : ℕ) (h : j < l.length) :
    l.getD j d = l.get ⟨j, h⟩ := by
  rw [List.getD_eq_getElem?_getD, List.getElem?_eq_getElem h]
  rfl

theorem length_takeWhile_le {p : Char → Bool} (l : PyStr) :
    (l.takeWhile p).length ≤ l.length := by
  conv_lhs => rw [← take_takeWhile_len (p := p) l]
  rw [List.length_take]
  exact Nat.min_le_right _ _

theorem pySlice_zero_length (s : PyStr) : pySlice s 0 s.length = s := by
  simp [pySlice]

theorem slice_of_drop (u : PyStr) (m a b : ℕ) :
    pySlice (u.drop m) a b = pySlice u (m + a) (m + b) := by
  unfold pySlice
  rw [List.take_drop, List.drop_drop]

theorem slice_take (t : PyStr) (n a b : ℕ) :
    pySlice (t.take n) a b = pySlice t a (min b n) := by
  unfold pySlice
  rw [List.take_take]

theorem slice_slice (u : PyStr) (a b a' b' : ℕ) :
    pySlice (pySlice u a b) a' b' = pySlice u (a + a') (a + min b' (b - a)) := by
  rw [pySlice_eq u a b, slice_take, slice_of_drop]

theorem drop_length_sub (l₁ l₂ l : PyStr) (h : l = l₁ ++ l₂) :
    l.drop (l.length - l₂.length) = l₂ := by
  subst h
  have h1 : (l₁ ++ l₂).length - l₂.length = l₁.length := by
    rw [List.length_append]; omega
  rw [h1, List.drop_left]

theorem pyStrip_as_slice (s : PyStr) :
    pyStrip s = pySlice s (s.length - (s.dropWhile isPySpace).length)
      (s.length - (s.dropWhile isPySpace).length + (pyStrip s).length) ∧
    s.length - (s.dropWhile isPySpace).length + (pyStrip s).length ≤ s.length := by
  have hsd : s = s.takeWhile isPySpace ++ s.dropWhile isPySpace :=
    (List.takeWhile_append_dropWhile (p := isPySpace) (l := s)).symm
  have hdrop : s.drop (s.length - (s.dropWhile isPySpace).length) = s.dropWhile isPySpace :=
    drop_length_sub _ _ s hsd
  have hsplit : s.dropWhile isPySpace =
      pyStrip s ++ ((s.dropWhile isPySpace).reverse.takeWhile isPySpace).reverse := by
    conv_lhs => rw [← List.reverse_reverse (s.dropWhile isPySpace),
      ← List.takeWhile_append_dropWhile (p := isPySpace)
        (l := (s.dropWhile isPySpace).reverse)]
    rw [List.reverse_append]
    rfl
  have hlen1 : (pyStrip s).length ≤ (s.dropWhile isPySpace).length := by
    conv_rhs => rw [hsplit]
    rw [List.length_append]; omega
  have hlen2 : (s.dropWhile isPySpace).length ≤ s.length :=
    (List.dropWhile_sublist _).length_le
  constructor
  · rw [pySlice_eq, Nat.add_sub_cancel_left, hdrop]
    conv_rhs => rw [hsplit]
    exact (List.take_left' rfl).symm
  · omega

theorem trim_offsets_abs (page t : PyStr) (P : ℕ)
    (ht : t = pySlice page P (P + t.length)) :
    (trim_offsets t P).1 = pySlice page (trim_offsets t P).2.1 (trim_offsets t P).2.2 ∧
    P ≤ (trim_offsets t P).2.1 ∧
    (trim_offsets t P).2.2 = (trim_offsets t P).2.1 + (trim_offsets t P).1.length ∧
    (trim_offsets t P).2.2 ≤ P + t.length ∧
    (trim_offsets t P).1 = pyStrip t := by
  obtain ⟨hs1, hs2⟩ := pyStrip_as_slice t
  unfold trim_offsets
  dsimp only
  refine ⟨?_, by omega, by omega, by omega, rfl⟩
  conv_lhs => rw [hs1]
  rw [pySlice_compose page t P _ _ ht (by omega)]
  congr 1
  omega

theorem isPrefixOf_take (l : PyStr) (n : ℕ) : (l.take n).isPrefixOf l = true := by
  induction l generalizing n with
  | nil => cases n <;> rfl
  | cons c cs ih =>
    cases n with
    | zero => rfl
    | succ m =>
      rw [List.take_succ_cons]
      show (c == c && (cs.take m).isPrefixOf cs) = true
      rw [ih]
      simp

theorem isPrefixOf_eq_take (p : PyStr) : ∀ l : PyStr, p.isPrefixOf l = true →
    l.take p.length = p ∧ p.length ≤ l.length := by
  induction p with
  | nil => exact fun l _ => ⟨rfl, Nat.zero_le _⟩
  | cons c cs ih =>
    intro l h
    cases l with
    | nil => exact absurd h (by simp [List.isPrefixOf])
    | cons d ds =>
      have h' : (c == d && cs.isPrefixOf ds) = true := h
      rw [Bool.and_eq_true] at h'
      have hcd : c = d := beq_iff_eq.mp h'.1
      obtain ⟨h1, h2⟩ := ih ds h'.2
      subst hcd
      exact ⟨by rw [List.length_cons, List.take_succ_cons, h1], by
        simp only [List.length_cons]; omega⟩

theorem pyFind_some_spec (s sub : PyStr) (start j : ℕ)
    (h : pyFind s sub start = some j) :
    start ≤ j ∧ j ≤ s.length ∧ pySlice s j (j + sub.length) = sub ∧
      j + sub.length ≤ s.length := by
  unfold pyFind at h
  have hp := List.find?_some h
  have hmem := List.mem_of_find?_eq_some h
  rw [List.mem_range] at hmem
  rw [Bool.and_eq_true, decide_eq_true_eq] at hp
  obtain ⟨hstart, hpre⟩ := hp
  obtain ⟨htake, hlen⟩ := isPrefixOf_eq_take sub (s.drop j) hpre
  rw [List.length_drop] at hlen
  refine ⟨hstart, by omega, ?_, by omega⟩
  rw [pySlice_eq, Nat.add_sub_cancel_left]
  exact htake

theorem pyFind_complete (s sub : PyStr) (a b : ℕ) (hne : sub ≠ [])
    (hocc : sub = pySlice s a b) :
    ∃ j, pyFind s sub 0 = some j := by
  have hocc' : sub = (s.drop a).take (b - a) := by rw [hocc, pySlice_eq]
  have hpre : sub.isPrefixOf (s.drop a) = true := by
    rw [hocc']; exact isPrefixOf_take _ _
  have ha : a < s.length := by
    by_contra hge
    push_neg at hge
    rw [List.drop_eq_nil_of_le hge] at hocc'
    simp only [List.take_nil] at hocc'
    exact hne hocc'
  have hmem : a ∈ List.range (s.length + 1) := by rw [List.mem_range]; omega
  have hsome : ((List.range (s.length + 1)).find?
      (fun i => decide (0 ≤ i) && sub.isPrefixOf (s.drop i))).isSome := by
    rw [List.find?_isSome]
    exact ⟨a, hmem, by simp [hpre]⟩
  obtain ⟨j, hj⟩ := Option.isSome_iff_exists.mp hsome
  exact ⟨j, hj⟩

theorem wordSpans_ge (i : ℕ) (l : PyStr) :
    ∀ pr ∈ wordSpans i l, i ≤ pr.1 := by
  induction i, l using wordSpans.induct with
  | case1 i =>
    intro pr hpr
    simp [wordSpans] at hpr
  | case2 i c cs hsp ih =>
    rw [wordSpans, if_pos hsp]
    intro pr hpr
    exact le_trans (Nat.le_succ i) (ih pr hpr)
  | case3 i c cs hsp k ih =>
    rw [wordSpans, if_neg hsp]
    intro pr hpr
    simp only [List.mem_cons] at hpr
    rcases hpr with rfl | hpr'
    · exact le_refl i
    · exact le_trans (by omega) (ih pr hpr')

theorem wordSpans_spec (text : PyStr) :
    ∀ (i : ℕ) (l : PyStr), l = text.drop i →
    ∀ pr ∈ wordSpans i l,
      i ≤ pr.1 ∧ pr.1 < pr.2 ∧ pr.2 ≤ text.length ∧
      (pySlice text pr.1 pr.2 ≠ [] ∧
        ∀ c ∈ pySlice text pr.1 pr.2, isPySpace c = false) := by
  intro i l
  induction i, l using wordSpans.induct with
  | case1 i =>
    intro _ pr hpr
    simp [wordSpans] at hpr
  | case2 i c cs hsp ih =>
    intro hl pr hpr
    rw [wordSpans, if_pos hsp] at hpr
    have hcs : cs = text.drop (i + 1) := by
      have h1 : cs = (text.drop i).drop 1 := by
        conv_rhs => rw [← hl]
        rfl
      rwa [List.drop_drop] at h1
    have := ih hcs pr hpr
    exact ⟨le_trans (Nat.le_succ i) this.1, this.2⟩
  | case3 i c cs hsp k ih =>
    intro hl pr hpr
    rw [wordSpans, if_neg hsp] at hpr
    simp only [List.mem_cons] at hpr
    have hcslen : 1 + cs.length = text.length - i := by
      have h2 := congrArg List.length hl
      simp only [List.length_cons, List.length_drop] at h2
      omega
    have hilen : i < text.length := by
      by_contra hgt
      have hnil : text.drop i = [] := List.drop_eq_nil_of_le (by omega)
      rw [hnil] at hl
      cases hl
    have hkeq : k = (cs.takeWhile (fun d => !isPySpace d)).length := rfl
    have hkcs : k ≤ cs.length := by
      rw [hkeq]
      exact length_takeWhile_le cs
    rcases hpr with rfl | hpr'
    · refine ⟨le_refl i, by omega, by omega, ?_⟩
      have hslice : pySlice text i (i + 1 + k) = c :: cs.take k := by
        rw [pySlice_eq, ← hl]
        have h3 : i + 1 + k - i = k + 1 := by omega
        rw [h3, List.take_succ_cons]
      rw [hslice]
      refine ⟨by simp, ?_⟩
      intro x hx
      rcases List.mem_cons.mp hx with rfl | hx'
      · simpa using hsp
      · rw [hkeq, take_takeWhile_len] at hx'
        have := List.mem_takeWhile_imp hx'
        simpa using this
    · have hdrop : cs.drop k = text.drop (i + 1 + k) := by
        have h1 : cs.drop k = ((text.drop i).drop 1).drop k := by
          conv_rhs => rw [← hl]
          rfl
        rw [List.drop_drop, List.drop_drop] at h1
        rw [h1]
        congr 1
        omega
      have := ih hdrop pr hpr'
      exact ⟨by omega, this.2⟩

theorem wordSpans_chain (i : ℕ) (l : PyStr) :
    List.Chain' (fun p q : ℕ × ℕ => p.2 ≤ q.1) (wordSpans i l) := by
  induction i, l using wordSpans.induct with
  | case1 i => simp [wordSpans]
  | case2 i c cs hsp ih =>
    rw [wordSpans, if_pos hsp]
    exact ih
  | case3 i c cs hsp k ih =>
    rw [wordSpans, if_neg hsp]
    apply List.chain'_cons'.mpr
    refine ⟨?_, ih⟩
    intro y hy
    exact wordSpans_ge _ _ y (List.mem_of_mem_head? hy)

theorem ws_get_spec (text : PyStr) (j : ℕ) (h : j < (wordSpans 0 text).length) :
    wsStart (wordSpans 0 text) j < wsEnd (wordSpans 0 text) j ∧
    wsEnd (wordSpans 0 text) j ≤ text.length ∧
    pySlice text (wsStart (wordSpans 0 text) j) (wsEnd (wordSpans 0 text) j) ≠ [] ∧
    (∀ c ∈ pySlice text (wsStart (wordSpans 0 text) j) (wsEnd (wordSpans 0 text) j),
      isPySpace c = false) := by
  have hmem : (wordSpans 0 text).get ⟨j, h⟩ ∈ wordSpans 0 text := List.get_mem _ _ h
  have hsp := wordSpans_spec text 0 text (by rfl) _ hmem
  unfold wsStart wsEnd
  rw [getD_lt _ _ _ h]
  exact ⟨hsp.2.1, hsp.2.2.1, hsp.2.2.2.1, hsp.2.2.2.2⟩

theorem ws_end_le_start (text : PyStr) (j e : ℕ) (hje : j < e)
    (he : e < (wordSpans 0 text).length) :
    wsEnd (wordSpans 0 text) j ≤ wsStart (wordSpans 0 text) e := by
  induction e with
  | zero => omega
  | succ e ih =>
    have hchain0 := List.chain'_iff_get.mp (wordSpans_chain 0 text) e
      (by have := he; omega)
    have hchain : wsEnd (wordSpans 0 text) e ≤ wsStart (wordSpans 0 text) (e + 1) := by
      unfold wsEnd wsStart
      rw [getD_lt _ _ _ (by omega), getD_lt _ _ _ he]
      exact hchain0
    by_cases hj : j = e
    · subst hj
      exact hchain
    · have h1 := ih (by omega) (by omega)
      have hlt := (ws_get_spec text e (by omega)).1
      omega

theorem ws_start_le_end (text : PyStr) (s e : ℕ) (hse : s ≤ e)
    (he : e < (wordSpans 0 text).length) :
    wsStart (wordSpans 0 text) s ≤ wsEnd (wordSpans 0 text) e := by
  by_cases h : s = e
  · subst h
    exact (ws_get_spec text s he).1.le
  · have h1 := ws_end_le_start text s e (by omega) he
    have h2 := (ws_get_spec text s (by omega)).1
    have h3 := (ws_get_spec text e he).1
    omega

theorem growEnd_spec (tok : PyStr → ℕ) (text : PyStr) (ws : List (ℕ × ℕ))
    (max_tokens start_w : ℕ) (hstart : start_w < ws.length) :
    ∀ e, start_w ≤ e → e ≤ ws.length →
      (start_w + 2 ≤ e →
        tok (pySlice text (wsStart ws start_w) (wsEnd ws (e - 1))) ≤ max_tokens) →
      start_w ≤ growEnd tok text ws max_tokens start_w e ∧
      growEnd tok text ws max_tokens start_w e < ws.length ∧
      (start_w < growEnd tok text ws max_tokens start_w e →
        tok (pySlice text (wsStart ws start_w)
          (wsEnd ws (growEnd tok text ws max_tokens start_w e))) ≤ max_tokens) := by
  have main : ∀ (fuel e : ℕ), ws.length - e ≤ fuel → start_w ≤ e → e ≤ ws.length →
      (start_w + 2 ≤ e →
        tok (pySlice text (wsStart ws start_w) (wsEnd ws (e - 1))) ≤ max_tokens) →
      start_w ≤ growEnd tok text ws max_tokens start_w e ∧
      growEnd tok text ws max_tokens start_w e < ws.length ∧
      (start_w < growEnd tok text ws max_tokens start_w e →
        tok (pySlice text (wsStart ws start_w)
          (wsEnd ws (growEnd tok text ws max_tokens start_w e))) ≤ max_tokens) := by
    intro fuel
    induction fuel with
    | zero =>
      intro e hfe hse hel hbud
      have he : e = ws.length := by omega
      rw [growEnd, if_neg (by omega)]
      subst he
      refine ⟨by omega, by omega, ?_⟩
      intro hlt
      exact hbud (by omega)
    | succ fuel ih =>
      intro e hfe hse hel hbud
      rw [growEnd]
      by_cases he : e < ws.length
      · rw [if_pos he]
        by_cases hcond : tok (pySlice text (wsStart ws start_w) (wsEnd ws e)) >
            max_tokens ∧ e > start_w
        · rw [if_pos hcond]
          refine ⟨by omega, by omega, ?_⟩
          intro hlt
          exact hbud (by omega)
        · rw [if_neg hcond]
          apply ih (e + 1) (by omega) (by omega) (by omega)
          intro h2
          have h3 : ¬ (tok (pySlice text (wsStart ws start_w) (wsEnd ws e)) >
              max_tokens) ∨ ¬ (e > start_w) := by tauto
          have : e + 1 - 1 = e := by omega
          rw [this]
          rcases h3 with h3 | h3
          · omega
          · omega
      · rw [if_neg he]
        have he' : e = ws.length := by omega
        subst he'
        refine ⟨by omega, by omega, ?_⟩
        intro hlt
        exact hbud (by omega)
  intro e
  exact main (ws.length - e) e (le_refl _)

theorem windowEnd_spec (tok : PyStr → ℕ) (text : PyStr) (ws : List (ℕ × ℕ))
    (max_tokens start_w : ℕ) (hstart : start_w < ws.length) :
    start_w ≤ windowEnd tok text ws max_tokens start_w ∧
    windowEnd tok text ws max_tokens start_w < ws.length ∧
    (start_w < windowEnd tok text ws max_tokens start_w →
      tok (pySlice text (wsStart ws start_w)
        (wsEnd ws (windowEnd tok text ws max_tokens start_w))) ≤ max_tokens) := by
  have h := growEnd_spec tok text ws max_tokens start_w hstart start_w (le_refl _)
    (le_of_lt hstart) (by omega)
  unfold windowEnd
  rw [if_neg (by omega)]
  exact h

theorem nextStart_gt (tok : PyStr → ℕ) (text : PyStr) (ws : List (ℕ × ℕ))
    (overlap_tokens start_w end_w : ℕ) (h : start_w ≤ end_w) :
    start_w < nextStart tok text ws overlap_tokens start_w end_w := by
  unfold nextStart
  dsimp only
  split <;> omega

theorem slidingLoop_spec (tok : PyStr → ℕ) (text : PyStr) (base : ℕ)
    (ws : List (ℕ × ℕ)) (max_tokens overlap_tokens : ℕ)
    (hlt : ∀ j, j < ws.length → wsStart ws j < wsEnd ws j)
    (hmono : ∀ j e, j < e → e < ws.length → wsEnd ws j ≤ wsStart ws e) :
    ∀ start_w,
      (∀ w ∈ slidingLoop tok text base ws max_tokens overlap_tokens start_w,
        ∃ s e, start_w ≤ s ∧ s ≤ e ∧ e < ws.length ∧
          w.char_start = base + wsStart ws s ∧ w.char_end = base + wsEnd ws e ∧
          w.text = pySlice text (wsStart ws s) (wsEnd ws e) ∧
          (s < e → tok w.text ≤ max_tokens)) ∧
      List.Chain' (fun a b : Window => a.char_start < b.char_start)
        (slidingLoop tok text base ws max_tokens overlap_tokens start_w) ∧
      (slidingLoop tok text base ws max_tokens overlap_tokens start_w).length ≤
        ws.length - start_w := by
  have main : ∀ (fuel start_w : ℕ), ws.length - start_w ≤ fuel →
      (∀ w ∈ slidingLoop tok text base ws max_tokens overlap_tokens start_w,
        ∃ s e, start_w ≤ s ∧ s ≤ e ∧ e < ws.length ∧
          w.char_start = base + wsStart ws s ∧ w.char_end = base + wsEnd ws e ∧
          w.text = pySlice text (wsStart ws s) (wsEnd ws e) ∧
          (s < e → tok w.text ≤ max_tokens)) ∧
      List.Chain' (fun a b : Window => a.char_start < b.char_start)
        (slidingLoop tok text base ws max_tokens overlap_tokens start_w) ∧
      (slidingLoop tok text base ws max_tokens overlap_tokens start_w).length ≤
        ws.length - start_w := by
    intro fuel
    induction fuel with
    | zero =>
      intro start_w hfuel
      have : ¬ (start_w < ws.length) := by omega
      rw [slidingLoop, if_neg this]
      exact ⟨fun w hw => absurd hw (List.not_mem_nil w), List.chain'_nil, by simp⟩
    | succ fuel ih =>
      intro start_w hfuel
      by_cases hsl : start_w < ws.length
      · have hwe := windowEnd_spec tok text ws max_tokens start_w hsl
        have hunfold : slidingLoop tok text base ws max_tokens overlap_tokens start_w =
            ⟨pySlice text (wsStart ws start_w)
                (wsEnd ws (windowEnd tok text ws max_tokens start_w)),
              base + wsStart ws start_w,
              base + wsEnd ws (windowEnd tok text ws max_tokens start_w)⟩ ::
            slidingLoop tok text base ws max_tokens overlap_tokens
              (nextStart tok text ws overlap_tokens start_w
                (windowEnd tok text ws max_tokens start_w)) := by
          rw [slidingLoop, if_pos hsl]
        have hnext := nextStart_gt tok text ws overlap_tokens start_w
          (windowEnd tok text ws max_tokens start_w) hwe.1
        have hih := ih (nextStart tok text ws overlap_tokens start_w
          (windowEnd tok text ws max_tokens start_w)) (by omega)
        rw [hunfold]
        refine ⟨?_, ?_, ?_⟩
        · intro w hw
          rcases List.mem_cons.mp hw with rfl | hw'
          · exact ⟨start_w, windowEnd tok text ws max_tokens start_w,
              le_refl _, hwe.1, hwe.2.1, rfl, rfl, rfl, hwe.2.2⟩
          · obtain ⟨s, e, hs, hse, he, h1, h2, h3, h4⟩ := hih.1 w hw'
            exact ⟨s, e, by omega, hse, he, h1, h2, h3, h4⟩
        · apply List.chain'_cons'.mpr
          refine ⟨?_, hih.2.1⟩
          intro y hy
          obtain ⟨s, e, hs, hse, he, h1, h2, h3, h4⟩ :=
            hih.1 y (List.mem_of_mem_head? hy)
          rw [h1]
          have hslt : start_w < s := by omega
          have h5 : wsEnd ws start_w ≤ wsStart ws s := hmono _ _ hslt (by omega)
          have h6 : wsStart ws start_w < wsEnd ws start_w := hlt _ hsl
          exact Nat.add_lt_add_left (by omega) base
        · rw [List.length_cons]
          have := hih.2.2
          omega
      · rw [slidingLoop, if_neg hsl]
        exact ⟨fun w hw => absurd hw (List.not_mem_nil w), List.chain'_nil, by simp⟩
  intro start_w
  exact main (ws.length - start_w) start_w (le_refl _)

theorem sliding_window_split_spec (tok : PyStr → ℕ) (text : PyStr)
    (base max_tokens overlap_tokens : ℕ) :
    (∀ w ∈ sliding_window_split tok text base max_tokens overlap_tokens,
      ∃ s e, s ≤ e ∧ e < (wordSpans 0 text).length ∧
        w.char_start = base + wsStart (wordSpans 0 text) s ∧
        w.char_end = base + wsEnd (wordSpans 0 text) e ∧
        w.text = pySlice text (wsStart (wordSpans 0 text) s)
          (wsEnd (wordSpans 0 text) e) ∧
        (s < e → tok w.text ≤ max_tokens)) ∧
    List.Chain' (fun a b : Window => a.char_start < b.char_start)
      (sliding_window_split tok text base max_tokens overlap_tokens) ∧
    (sliding_window_split tok text base max_tokens overlap_tokens).length ≤
      (wordSpans 0 text).length := by
  unfold sliding_window_split
  by_cases hem : (wordSpans 0 text).isEmpty
  · rw [if_pos hem]
    exact ⟨fun w hw => absurd hw (List.not_mem_nil w), List.chain'_nil, by simp⟩
  · rw [if_neg hem]
    have h := slidingLoop_spec tok text base (wordSpans 0 text) max_tokens
      overlap_tokens (fun j hj => (ws_get_spec text j hj).1)
      (fun j e hje he => ws_end_le_start text j e hje he) 0
    exact ⟨fun w hw => by
      obtain ⟨s, e, _, hse, he, h1, h2, h3, h4⟩ := h.1 w hw
      exact ⟨s, e, hse, he, h1, h2, h3, h4⟩, h.2.1, by
        have := h.2.2
        omega⟩

theorem sliding_window_split_abs (tok : PyStr → ℕ) (page text : PyStr)
    (P max_tokens overlap_tokens : ℕ)
    (ht : text = pySlice page P (P + text.length)) :
    ∀ w ∈ sliding_window_split tok text P max_tokens overlap_tokens,
      w.text = pySlice page w.char_start w.char_end ∧
      P ≤ w.char_start ∧ w.char_start ≤ w.char_end ∧
      w.char_end ≤ P + text.length ∧
      (tok w.text ≤ max_tokens ∨
        (w.text ≠ [] ∧ ∀ c ∈ w.text, isPySpace c = false)) := by
  intro w hw
  obtain ⟨s, e, hse, he, h1, h2, h3, h4⟩ :=
    (sliding_window_split_spec tok text P max_tokens overlap_tokens).1 w hw
  have hsle : wsStart (wordSpans 0 text) s ≤ wsEnd (wordSpans 0 text) e :=
    ws_start_le_end text s e hse he
  have hendle : wsEnd (wordSpans 0 text) e ≤ text.length :=
    (ws_get_spec text e he).2.1
  refine ⟨?_, by omega, by omega, by omega, ?_⟩
  · rw [h3, h1, h2]
    exact pySlice_compose page text P _ _ ht (le_trans hendle (le_refl _))
  · by_cases hse' : s < e
    · exact Or.inl (h4 hse')
    · have hseq : s = e := by omega
      subst hseq
      right
      rw [h3]
      exact ⟨(ws_get_spec text s he).2.2.1, (ws_get_spec text s he).2.2.2⟩

theorem sectionChunks_spec (tok : PyStr → ℕ) (page_text doc_id : PyStr)
    (page_num max_tokens overlap_tokens : ℕ) (sec : Sec) :
    ∀ c ∈ sectionChunks tok page_text doc_id page_num max_tokens overlap_tokens sec,
      c.chunk_text = pySlice page_text c.char_start c.char_end ∧
      c.token_count = tok c.chunk_text ∧
      (c.token_count ≤ max_tokens ∨ isSingleWord c.chunk_text) ∧
      sec.char_start ≤ c.char_start ∧ c.char_start ≤ c.char_end ∧
      c.char_end ≤ max sec.char_start sec.char_end := by
  intro c hc
  unfold sectionChunks at hc
  dsimp only at hc
  have hrawlen : (pySlice page_text sec.char_start sec.char_end).length ≤
      max sec.char_start sec.char_end - sec.char_start := by
    rw [pySlice_length]; omega
  have ht : pySlice page_text sec.char_start sec.char_end =
      pySlice page_text sec.char_start
        (sec.char_start + (pySlice page_text sec.char_start sec.char_end).length) :=
    (pySlice_self page_text sec.char_start sec.char_end).symm
  obtain ⟨htr1, htr2, htr3, htr4, _⟩ :=
    trim_offsets_abs page_text (pySlice page_text sec.char_start sec.char_end)
      sec.char_start ht
  split at hc
  · exact absurd hc (List.not_mem_nil c)
  · split at hc
    · rename_i htok
      rw [List.mem_singleton] at hc
      subst hc
      refine ⟨htr1, rfl, Or.inl htok, htr2, by dsimp only; omega, by dsimp only; omega⟩
    · rw [List.mem_map] at hc
      obtain ⟨w, hw, rfl⟩ := hc
      have htx : (trim_offsets (pySlice page_text sec.char_start sec.char_end)
            sec.char_start).1 =
          pySlice page_text
            (trim_offsets (pySlice page_text sec.char_start sec.char_end)
              sec.char_start).2.1
            ((trim_offsets (pySlice page_text sec.char_start sec.char_end)
              sec.char_start).2.1 +
              (trim_offsets (pySlice page_text sec.char_start sec.char_end)
                sec.char_start).1.length) := by
        rw [← htr3]
        exact htr1
      obtain ⟨h1, h2, h3, h4, h5⟩ :=
        sliding_window_split_abs tok page_text _ _ max_tokens overlap_tokens htx w hw
      exact ⟨h1, rfl, h5, by dsimp only at *; omega, h3, by dsimp only at *; omega⟩

theorem sectionChunks_chain (tok : PyStr → ℕ) (page_text doc_id : PyStr)
    (page_num max_tokens overlap_tokens : ℕ) (sec : Sec) :
    List.Chain' (fun a b : Chunk => a.char_start ≤ b.char_start)
      (sectionChunks tok page_text doc_id page_num max_tokens overlap_tokens sec) := by
  unfold sectionChunks
  dsimp only
  split
  · exact List.chain'_nil
  · split
    · exact List.chain'_singleton _
    · rw [List.chain'_map]
      exact List.Chain'.imp (fun a b h => by dsimp only; omega)
        (sliding_window_split_spec tok _ _ max_tokens overlap_tokens).2.1

theorem flatMap_bound_aux {α β : Type} (f : α → List β) (key : β → ℕ)
    (lb ub : α → ℕ) (l : List α) :
    ∀ a : α,
      List.Chain' (fun x y => ub x ≤ lb y) (a :: l) →
      (∀ x ∈ l, lb x ≤ ub x) →
      (∀ x ∈ l, ∀ y ∈ f x, lb x ≤ key y) →
      ∀ y ∈ l.flatMap f, ub a ≤ key y := by
  induction l with
  | nil => intro a _ _ _ y hy; simp at hy
  | cons b rest ih =>
    intro a hchain hwd hlb y hy
    rw [List.flatMap_cons, List.mem_append] at hy
    rcases hy with hy | hy
    · have h1 : ub a ≤ lb b := (List.chain'_cons.mp hchain).1
      have h2 : lb b ≤ key y := hlb b (List.mem_cons_self b rest) y hy
      omega
    · have h1 : ub a ≤ lb b := (List.chain'_cons.mp hchain).1
      have h2 : lb b ≤ ub b := hwd b (List.mem_cons_self b rest)
      have h3 := ih b (List.chain'_cons.mp hchain).2
        (fun x hx => hwd x (List.mem_cons_of_mem b hx))
        (fun x hx => hlb x (List.mem_cons_of_mem b hx)) y hy
      omega

theorem chain'_flatMap_of_bounds {α β : Type} (f : α → List β) (key : β → ℕ)
    (lb ub : α → ℕ) (l : List α)
    (hloc : ∀ a ∈ l, List.Chain' (fun x y => key x ≤ key y) (f a))
    (hbound : ∀ a ∈ l, ∀ x ∈ f a, lb a ≤ key x ∧ key x ≤ ub a)
    (hlink : List.Chain' (fun a b => ub a ≤ lb b) l)
    (hwd : ∀ a ∈ l, lb a ≤ ub a) :
    List.Chain' (fun x y => key x ≤ key y) (l.flatMap f) := by
  induction l with
  | nil => exact List.chain'_nil
  | cons a rest ih =>
    rw [List.flatMap_cons, List.chain'_append]
    refine ⟨hloc a (List.mem_cons_self a rest),
      ih (fun x hx => hloc x (List.mem_cons_of_mem a hx))
        (fun x hx => hbound x (List.mem_cons_of_mem a hx)) hlink.tail
        (fun x hx => hwd x (List.mem_cons_of_mem a hx)), ?_⟩
    intro x hx y hy
    have hxm : x ∈ f a := List.mem_of_mem_getLast? hx
    have hym : y ∈ rest.flatMap f := List.mem_of_mem_head? hy
    have h1 : key x ≤ ub a := (hbound a (List.mem_cons_self a rest) x hxm).2
    have h2 : ub a ≤ key y := flatMap_bound_aux f key lb ub rest a hlink
      (fun z hz => hwd z (List.mem_cons_of_mem a hz))
      (fun z hz w hw => (hbound z (List.mem_cons_of_mem a hz) w hw).1) y hym
    omega

theorem locateHeadings_ge (page_text : PyStr) (hs : List PyStr) :
    ∀ s0 : ℕ, ∀ pr ∈ locateHeadings page_text hs s0, s0 ≤ pr.1 := by
  induction hs with
  | nil => intro s0 pr hpr; simp [locateHeadings] at hpr
  | cons h rest ih =>
    intro s0 pr hpr
    unfold locateHeadings at hpr
    rcases hf : pyFind page_text h s0 with _ | idx
    · rw [hf] at hpr; exact ih s0 pr hpr
    · rw [hf] at hpr
      rcases List.mem_cons.mp hpr with hpr | hpr
      · subst hpr; exact (pyFind_some_spec page_text h s0 idx hf).1
      · have h1 := ih (idx + h.length) pr hpr
        have h2 := (pyFind_some_spec page_text h s0 idx hf).1
        omega

theorem locateHeadings_chain (page_text : PyStr) (hs : List PyStr) :
    ∀ s0 : ℕ,
      List.Chain' (fun a b : ℕ × PyStr => a.1 ≤ b.1)
        (locateHeadings page_text hs s0) := by
  induction hs with
  | nil => intro s0; exact List.chain'_nil
  | cons h rest ih =>
    intro s0
    unfold locateHeadings
    rcases hf : pyFind page_text h s0 with _ | idx
    · exact ih s0
    · rw [List.chain'_cons']
      refine ⟨?_, ih (idx + h.length)⟩
      intro b hb
      have hmem : b ∈ locateHeadings page_text rest (idx + h.length) :=
        List.mem_of_mem_head? hb
      have h1 := locateHeadings_ge page_text rest (idx + h.length) b hmem
      dsimp only
      omega

theorem headedSections_chain (page_text : PyStr) (ps : List (ℕ × PyStr)) :
    List.Chain' (fun a b : ℕ × PyStr => a.1 ≤ b.1) ps →
    List.Chain' (fun s1 s2 : Sec => max s1.char_start s1.char_end ≤ s2.char_start)
      (headedSections page_text ps) := by
  induction ps with
  | nil => intro _; exact List.chain'_nil
  | cons pr rest ih =>
    intro hchain
    rcases pr with ⟨pos, h⟩
    cases rest with
    | nil => exact List.chain'_singleton _
    | cons pr2 rest' =>
      rcases pr2 with ⟨pos2, h2⟩
      rw [List.chain'_cons] at hchain
      unfold headedSections
      dsimp only
      rw [List.chain'_cons']
      constructor
      · intro b hb
        unfold headedSections at hb
        rw [List.head?_cons] at hb
        rw [Option.mem_some_iff] at hb
        subst hb
        dsimp only at hchain ⊢
        omega
      · exact ih hchain.2

theorem buildSections_chain (page_text : PyStr) (ps : List (ℕ × PyStr))
    (hchain : List.Chain' (fun a b : ℕ × PyStr => a.1 ≤ b.1) ps) :
    List.Chain' (fun s1 s2 : Sec => max s1.char_start s1.char_end ≤ s2.char_start)
      (buildSections page_text ps) := by
  unfold buildSections
  cases ps with
  | nil => exact List.chain'_singleton _
  | cons pr rest =>
    rcases pr with ⟨pos, h⟩
    dsimp only
    split
    · rw [List.singleton_append, List.chain'_cons']
      constructor
      · intro b hb
        unfold headedSections at hb
        rw [List.head?_cons, Option.mem_some_iff] at hb
        subst hb
        dsimp only
        omega
      · exact headedSections_chain page_text _ hchain
    · rw [List.nil_append]
      exact headedSections_chain page_text _ hchain

theorem structural_chunk_mem (tok : PyStr → ℕ) (page_data : PageData)
    (max_tokens overlap_tokens : ℕ) :
    ∀ c ∈ structural_chunk tok page_data max_tokens overlap_tokens,
      c.chunk_text = pySlice page_data.text c.char_start c.char_end ∧
      c.token_count = tok c.chunk_text ∧
      (c.token_count ≤ max_tokens ∨ isSingleWord c.chunk_text) := by
  intro c hc
  unfold structural_chunk at hc
  dsimp only at hc
  split at hc
  · exact absurd hc (List.not_mem_nil c)
  · rw [List.mem_flatMap] at hc
    obtain ⟨sec, _, hc⟩ := hc
    have h := sectionChunks_spec tok page_data.text page_data.doc_id page_data.page
      max_tokens overlap_tokens sec c hc
    exact ⟨h.1, h.2.1, h.2.2.1⟩

theorem structural_chunk_chain (tok : PyStr → ℕ) (page_data : PageData)
    (max_tokens overlap_tokens : ℕ) :
    List.Chain' (fun a b : Chunk => a.char_start ≤ b.char_start)
      (structural_chunk tok page_data max_tokens overlap_tokens) := by
  unfold structural_chunk
  dsimp only
  split
  · exact List.chain'_nil
  · refine chain'_flatMap_of_bounds _ (fun c : Chunk => c.char_start)
      (fun sec : Sec => sec.char_start)
      (fun sec : Sec => max sec.char_start sec.char_end) _ ?_ ?_ ?_ ?_
    · intro sec _
      exact sectionChunks_chain tok page_data.text page_data.doc_id page_data.page
        max_tokens overlap_tokens sec
    · intro sec _ c hc
      have h := sectionChunks_spec tok page_data.text page_data.doc_id page_data.page
        max_tokens overlap_tokens sec c hc
      exact ⟨h.2.2.2.1, by
        dsimp only
        have h1 := h.2.2.2.2.1
        have h2 := h.2.2.2.2.2
        omega⟩
    · exact buildSections_chain page_data.text _
        (locateHeadings_chain page_data.text _ 0)
    · intro sec _
      dsimp only
      omega

theorem drop_append_left (u t d : PyStr) :
    (u ++ (t ++ d)).drop (u.length + t.length) = d := by
  rw [← List.append_assoc]
  have h2 : (u ++ t).length = u.length + t.length := List.length_append u t
  rw [← h2, List.drop_left]

theorem reSplitPieces_slices (l : PyStr) (prev : Option Char) (acc : PyStr) :
    ∀ p ∈ reSplitPieces l prev acc, ∃ a b, p = pySlice (acc.reverse ++ l) a b := by
  induction l, prev, acc using reSplitPieces.induct with
  | case1 prev acc =>
    intro p hp
    rw [reSplitPieces] at hp
    rw [List.mem_singleton] at hp
    subst hp
    exact ⟨0, (acc.reverse ++ ([] : PyStr)).length, by
      rw [List.append_nil]
      exact (pySlice_zero_length _).symm⟩
  | case2 c rest prev acc hcond ih =>
    intro p hp
    rw [reSplitPieces, if_pos hcond] at hp
    rcases List.mem_cons.mp hp with hp | hp
    · subst hp
      refine ⟨0, acc.reverse.length, ?_⟩
      unfold pySlice
      rw [List.drop_zero, List.take_left]
    · obtain ⟨a, b, hab⟩ := ih p hp
      rw [List.reverse_nil, List.nil_append] at hab
      obtain ⟨t, htt⟩ := List.dropWhile_suffix (l := rest) isPySpace
      have hd : (acc.reverse ++ c :: rest).drop
          (acc.reverse.length + 1 + t.length) = rest.dropWhile isPySpace := by
        conv_lhs => rw [← htt]
        have h1 : acc.reverse ++ c :: (t ++ rest.dropWhile isPySpace) =
            (acc.reverse ++ [c]) ++ (t ++ rest.dropWhile isPySpace) := by
          simp
        have h2 : acc.reverse.length + 1 + t.length =
            (acc.reverse ++ [c]).length + t.length := by
          simp
        rw [h1, h2]
        exact drop_append_left _ _ _
      rw [← hd, slice_of_drop] at hab
      exact ⟨_, _, hab⟩
  | case3 c rest prev acc hc1 hcond ih =>
    intro p hp
    rw [reSplitPieces, if_neg hc1, if_pos hcond] at hp
    rcases List.mem_cons.mp hp with hp | hp
    · subst hp
      refine ⟨0, acc.reverse.length, ?_⟩
      unfold pySlice
      rw [List.drop_zero, List.take_left]
    · obtain ⟨a, b, hab⟩ := ih p hp
      rw [List.reverse_nil, List.nil_append] at hab
      obtain ⟨t, htt⟩ :=
        List.dropWhile_suffix (l := c :: rest) (fun d => decide (d = '\n'))
      have hd : (acc.reverse ++ c :: rest).drop (acc.reverse.length + t.length) =
          (c :: rest).dropWhile (fun d => decide (d = '\n')) := by
        conv_lhs => rw [← htt]
        exact drop_append_left _ _ _
      rw [← hd, slice_of_drop] at hab
      exact ⟨_, _, hab⟩
  | case4 c rest prev acc hc1 hc2 ih =>
    intro p hp
    rw [reSplitPieces, if_neg hc1, if_neg hc2] at hp
    obtain ⟨a, b, hab⟩ := ih p hp
    rw [List.reverse_cons, List.append_assoc, List.singleton_append] at hab
    exact ⟨a, b, hab⟩

theorem split_sentences_ne_nil (text : PyStr) :
    ∀ s ∈ split_sentences text, s ≠ [] := by
  intro s hs
  unfold split_sentences at hs
  rw [List.mem_filter] at hs
  intro he
  subst he
  simp at hs

theorem split_sentences_slices (text : PyStr) :
    ∀ s ∈ split_sentences text, ∃ a b, s = pySlice text a b := by
  intro s hs
  unfold split_sentences at hs
  rw [List.mem_filter] at hs
  obtain ⟨hmem, _⟩ := hs
  rw [List.mem_map] at hmem
  obtain ⟨p, hp, rfl⟩ := hmem
  obtain ⟨a, b, hab⟩ := reSplitPieces_slices text none [] p hp
  rw [List.reverse_nil, List.nil_append] at hab
  obtain ⟨h1, _⟩ := pyStrip_as_slice p
  refine ⟨a + (p.length - (p.dropWhile isPySpace).length),
    a + min (p.length - (p.dropWhile isPySpace).length + (pyStrip p).length)
      (b - a), ?_⟩
  conv_lhs => rw [h1]
  rw [hab, slice_slice]

theorem sentenceSpans_spec (page_text : PyStr) (sents : List PyStr) :
    ∀ cursor : ℕ,
      (sentenceSpans page_text sents cursor).length = sents.length ∧
      List.Chain' (fun a b : ℕ × ℕ => a.2 ≤ b.1)
        (sentenceSpans page_text sents cursor) ∧
      ∀ sp ∈ sentenceSpans page_text sents cursor, cursor ≤ sp.1 ∧ sp.1 ≤ sp.2 := by
  induction sents with
  | nil =>
    intro cursor
    exact ⟨rfl, List.chain'_nil, by intro sp hsp; simp [sentenceSpans] at hsp⟩
  | cons sent rest ih =>
    intro cursor
    unfold sentenceSpans
    dsimp only
    rcases hf : pyFind page_text sent cursor with _ | i
    all_goals dsimp only
    · refine ⟨by rw [List.length_cons, (ih _).1, List.length_cons], ?_, ?_⟩
      · rw [List.chain'_cons']
        refine ⟨?_, (ih _).2.1⟩
        intro b hb
        have := ((ih (cursor + sent.length)).2.2 b (List.mem_of_mem_head? hb)).1
        dsimp only
        omega
      · intro sp hsp
        rcases List.mem_cons.mp hsp with hsp | hsp
        · subst hsp; exact ⟨Nat.le_refl _, by dsimp only; omega⟩
        · have := (ih (cursor + sent.length)).2.2 sp hsp
          omega
    · have hi := (pyFind_some_spec page_text sent cursor i hf).1
      refine ⟨by rw [List.length_cons, (ih _).1, List.length_cons], ?_, ?_⟩
      · rw [List.chain'_cons']
        refine ⟨?_, (ih _).2.1⟩
        intro b hb
        have := ((ih (i + sent.length)).2.2 b (List.mem_of_mem_head? hb)).1
        dsimp only
        omega
      · intro sp hsp
        rcases List.mem_cons.mp hsp with hsp | hsp
        · subst hsp; exact ⟨hi, by dsimp only; omega⟩
        · have := (ih (i + sent.length)).2.2 sp hsp
          omega

theorem single_sentence_text (page_text s : PyStr)
    (hs : split_sentences page_text = [s]) :
    pySlice page_text ((sentenceSpans page_text [s] 0).getD 0 (0, 0)).1
      ((sentenceSpans page_text [s] 0).getD 0 (0, 0)).2 = s := by
  have hmem : s ∈ split_sentences page_text := by
    rw [hs]; exact List.mem_singleton.mpr rfl
  obtain ⟨a, b, hab⟩ := split_sentences_slices page_text s hmem
  have hne := split_sentences_ne_nil page_text s hmem
  obtain ⟨j, hj⟩ := pyFind_complete page_text s a b hne hab
  unfold sentenceSpans
  rw [hj]
  dsimp only
  rw [List.getD_cons_zero]
  exact (pyFind_some_spec page_text s 0 j hj).2.2.1

theorem groupChunks_spec (tok : PyStr → ℕ) (page_text doc_id : PyStr)
    (page_num : ℕ) (spans : List (ℕ × ℕ)) (max_tokens : ℕ) (g : List ℕ) :
    ∀ c ∈ groupChunks tok page_text doc_id page_num spans max_tokens g,
      c.chunk_text = pySlice page_text c.char_start c.char_end ∧
      c.token_count = tok c.chunk_text ∧
      (c.token_count ≤ max_tokens ∨ isSingleWord c.chunk_text) ∧
      (spans.getD (g.headD 0) (0, 0)).1 ≤ c.char_start ∧
      c.char_start ≤ max (spans.getD (g.headD 0) (0, 0)).1
        (spans.getD ((g.getLast?).getD 0) (0, 0)).2 := by
  intro c hc
  unfold groupChunks at hc
  dsimp only at hc
  have hlen : (pySlice page_text (spans.getD (g.headD 0) (0, 0)).1
      (spans.getD ((g.getLast?).getD 0) (0, 0)).2).length ≤
      max (spans.getD (g.headD 0) (0, 0)).1
        (spans.getD ((g.getLast?).getD 0) (0, 0)).2 -
        (spans.getD (g.headD 0) (0, 0)).1 := by
    rw [pySlice_length]; omega
  have ht : pySlice page_text (spans.getD (g.headD 0) (0, 0)).1
      (spans.getD ((g.getLast?).getD 0) (0, 0)).2 =
      pySlice page_text (spans.getD (g.headD 0) (0, 0)).1
        ((spans.getD (g.headD 0) (0, 0)).1 +
          (pySlice page_text (spans.getD (g.headD 0) (0, 0)).1
            (spans.getD ((g.getLast?).getD 0) (0, 0)).2).length) :=
    (pySlice_self page_text _ _).symm
  split at hc
  · rw [List.mem_map] at hc
    obtain ⟨w, hw, rfl⟩ := hc
    obtain ⟨h1, h2, h3, h4, h5⟩ :=
      sliding_window_split_abs tok page_text _ _ max_tokens 50 ht w hw
    exact ⟨h1, rfl, h5, by dsimp only at *; omega, by dsimp only at *; omega⟩
  · rename_i htok
    rw [List.mem_singleton] at hc
    subst hc
    rw [Nat.not_lt] at htok
    exact ⟨rfl, rfl, Or.inl htok, Nat.le_refl _, by dsimp only; omega⟩

theorem groupChunks_chain (tok : PyStr → ℕ) (page_text doc_id : PyStr)
    (page_num : ℕ) (spans : List (ℕ × ℕ)) (max_tokens : ℕ) (g : List ℕ) :
    List.Chain' (fun a b : Chunk => a.char_start ≤ b.char_start)
      (groupChunks tok page_text doc_id page_num spans max_tokens g) := by
  unfold groupChunks
  dsimp only
  split
  · rw [List.chain'_map]
    exact List.Chain'.imp (fun a b h => by dsimp only; omega)
      (sliding_window_split_spec tok _ _ max_tokens 50).2.1
  · exact List.chain'_singleton _

theorem rangeBlocks_append (gs1 : List (List ℕ)) :
    ∀ (gs2 : List (List ℕ)) (a m b : ℕ), RangeBlocks a gs1 m → RangeBlocks m gs2 b →
      RangeBlocks a (gs1 ++ gs2) b := by
  induction gs1 with
  | nil =>
    intro gs2 a m b h1 h2
    have he : a = m := h1
    subst he
    rw [List.nil_append]
    exact h2
  | cons g gs ih =>
    intro gs2 a m b h1 h2
    obtain ⟨k, hk, hg, hrest⟩ := h1
    exact ⟨k, hk, hg, ih gs2 (a + k) m b hrest h2⟩

theorem rangeBlocks_split (gs1 : List (List ℕ)) :
    ∀ (gs2 : List (List ℕ)) (a b : ℕ), RangeBlocks a (gs1 ++ gs2) b →
      ∃ m, RangeBlocks a gs1 m ∧ RangeBlocks m gs2 b := by
  induction gs1 with
  | nil =>
    intro gs2 a b h
    rw [List.nil_append] at h
    exact ⟨a, rfl, h⟩
  | cons g gs ih =>
    intro gs2 a b h
    obtain ⟨k, hk, hg, hrest⟩ := h
    obtain ⟨m, hm1, hm2⟩ := ih gs2 (a + k) b hrest
    exact ⟨m, ⟨k, hk, hg, hm1⟩, hm2⟩

theorem rangeBlocks_le (gs : List (List ℕ)) :
    ∀ a b : ℕ, RangeBlocks a gs b → a ≤ b := by
  induction gs with
  | nil => intro a b h; exact Nat.le_of_eq h
  | cons g rest ih =>
    intro a b h
    obtain ⟨k, hk, hg, hrest⟩ := h
    have := ih (a + k) b hrest
    omega

theorem range'_headD (a k : ℕ) (hk : 0 < k) : (List.range' a k).headD 0 = a := by
  cases k with
  | zero => omega
  | succ m => rfl

theorem range'_getLast?_eq (k : ℕ) : ∀ a : ℕ, 0 < k →
    (List.range' a k).getLast? = some (a + k - 1) := by
  induction k with
  | zero => intro a h; omega
  | succ m ih =>
    intro a _
    cases m with
    | zero => rfl
    | succ n =>
      have h1 : List.range' a (n + 1 + 1) = a :: List.range' (a + 1) (n + 1) := rfl
      have h2 : List.range' (a + 1) (n + 1) = (a + 1) :: List.range' (a + 2) n := rfl
      rw [h1, h2, List.getLast?_cons_cons, ← h2, ih (a + 1) (by omega)]
      congr 1
      omega

theorem range'_getLastD (a k : ℕ) (hk : 0 < k) :
    (List.range' a k).getLast?.getD 0 = a + k - 1 := by
  rw [range'_getLast?_eq k a hk]
  rfl

theorem range'_split (j : ℕ) : ∀ a k : ℕ,
    List.range' a (j + k) = List.range' a j ++ List.range' (a + j) k := by
  induction j with
  | zero =>
    intro a k
    rw [Nat.zero_add, Nat.add_zero]
    rfl
  | succ m ih =>
    intro a k
    have h1 : m + 1 + k = (m + k) + 1 := by omega
    rw [h1]
    show a :: List.range' (a + 1) (m + k) =
      List.range' a (m + 1) ++ List.range' (a + (m + 1)) k
    rw [ih (a + 1) k]
    show a :: (List.range' (a + 1) m ++ List.range' (a + 1 + m) k) =
      (a :: List.range' (a + 1) m) ++ List.range' (a + (m + 1)) k
    rw [List.cons_append]
    have h2 : a + 1 + m = a + (m + 1) := by omega
    rw [h2]

theorem buildGroupsAux_blocks (θ : ℚ) (sims : List ℚ) :
    ∀ (i a k : ℕ) (cur : List ℕ),
      cur.reverse = List.range' a k → 0 < k → a + k = i + 1 →
      RangeBlocks a (buildGroupsAux θ sims i cur) (i + 1 + sims.length) := by
  induction sims with
  | nil =>
    intro i a k cur hcur hk hik
    unfold buildGroupsAux
    exact ⟨k, hk, hcur, by
      show a + k = i + 1 + ([] : List ℚ).length
      simp only [List.length_nil]
      omega⟩
  | cons s rest ih =>
    intro i a k cur hcur hk hik
    unfold buildGroupsAux
    split
    · refine ⟨k, hk, hcur, ?_⟩
      have hend : (i + 1) + 1 + rest.length = i + 1 + (s :: rest).length := by
        simp only [List.length_cons]
        omega
      rw [← hend, hik]
      exact ih (i + 1) (i + 1) 1 [i + 1] rfl (by omega) (by omega)
    · have hcur' : ((i + 1) :: cur).reverse = List.range' a (k + 1) := by
        rw [List.reverse_cons, hcur]
        have h1 : i + 1 = a + k := by omega
        rw [h1, range'_split k a 1]
        rfl
      have hend : (i + 1) + 1 + rest.length = i + 1 + (s :: rest).length := by
        simp only [List.length_cons]
        omega
      rw [← hend]
      exact ih (i + 1) a (k + 1) ((i + 1) :: cur) hcur' (by omega) (by omega)

theorem buildGroups_blocks (sims : List ℚ) (θ : ℚ) :
    RangeBlocks 0 (buildGroups sims θ) (sims.length + 1) := by
  unfold buildGroups
  have h := buildGroupsAux_blocks θ sims 0 0 1 [0] rfl (by omega) (by omega)
  have he : 0 + 1 + sims.length = sims.length + 1 := by omega
  rw [he] at h
  exact h

theorem mergeTiny_blocks (gs : List (List ℕ)) :
    ∀ (merged : List (List ℕ)) (a m b : ℕ),
      RangeBlocks a merged.reverse m → RangeBlocks m gs b →
      RangeBlocks a (mergeTiny merged gs) b := by
  induction gs with
  | nil =>
    intro merged a m b h1 h2
    have he : m = b := h2
    subst he
    cases merged with
    | nil => exact h1
    | cons last ms => exact h1
  | cons g rest ih =>
    intro merged a m b h1 h2
    obtain ⟨k, hk, hg, hrest⟩ := h2
    cases merged with
    | nil =>
      have he : a = m := h1
      subst he
      show RangeBlocks a (mergeTiny [g] rest) b
      exact ih [g] a (a + k) b ⟨k, hk, hg, rfl⟩ hrest
    | cons last ms =>
      by_cases hlen : g.length < 2
      · have hstep : mergeTiny (last :: ms) (g :: rest) =
            mergeTiny ((last ++ g) :: ms) rest := by
          simp only [mergeTiny, if_pos hlen]
        rw [hstep]
        have h1' : RangeBlocks a (ms.reverse ++ [last]) m := by
          have hr : (last :: ms).reverse = ms.reverse ++ [last] :=
            List.reverse_cons last ms
          rw [← hr]
          exact h1
        obtain ⟨m', hms, hlast⟩ := rangeBlocks_split ms.reverse [last] a m h1'
        obtain ⟨j, hj, hlj, hje⟩ := hlast
        have hm : m' + j = m := hje
        refine ih ((last ++ g) :: ms) a (m + k) b ?_ hrest
        have hrev : ((last ++ g) :: ms).reverse = ms.reverse ++ [last ++ g] :=
          List.reverse_cons _ _
        rw [hrev]
        refine rangeBlocks_append ms.reverse [last ++ g] a m' (m + k) hms ?_
        refine ⟨j + k, by omega, ?_, ?_⟩
        · rw [hlj, hg, ← hm]
          exact (range'_split j m' k).symm
        · show m' + (j + k) = m + k
          omega
      · have hstep : mergeTiny (last :: ms) (g :: rest) =
            mergeTiny (g :: last :: ms) rest := by
          simp only [mergeTiny, if_neg hlen]
        rw [hstep]
        refine ih (g :: last :: ms) a (m + k) b ?_ hrest
        have hrev : (g :: last :: ms).reverse = (last :: ms).reverse ++ [g] :=
          List.reverse_cons _ _
        rw [hrev]
        exact rangeBlocks_append (last :: ms).reverse [g] a m (m + k) h1
          ⟨k, hk, hg, rfl⟩

theorem spans_consec (page_text : PyStr) (sents : List PyStr) (c0 i j : ℕ)
    (hj : j < (sentenceSpans page_text sents c0).length) (hij : i + 1 = j) :
    ((sentenceSpans page_text sents c0).get ⟨i, by omega⟩).2 ≤
      ((sentenceSpans page_text sents c0).get ⟨j, hj⟩).1 := by
  subst hij
  have h := List.chain'_iff_get.mp (sentenceSpans_spec page_text sents c0).2.1
  exact h i (by omega)

theorem spans_start_mono (page_text : PyStr) (sents : List PyStr) (c0 : ℕ) :
    ∀ (j : ℕ) (hj : j < (sentenceSpans page_text sents c0).length) (i : ℕ)
      (hij : i ≤ j),
      ((sentenceSpans page_text sents c0).get ⟨i, by omega⟩).1 ≤
        ((sentenceSpans page_text sents c0).get ⟨j, hj⟩).1 := by
  intro j
  induction j with
  | zero =>
    intro hj i hi
    have h0 : i = 0 := by omega
    subst h0
    exact Nat.le_refl _
  | succ m ihm =>
    intro hj i hi
    by_cases him : i = m + 1
    · subst him
      exact Nat.le_refl _
    · have h1 : i ≤ m := by omega
      have hm : m < (sentenceSpans page_text sents c0).length := by omega
      have h2 := ihm hm i h1
      have h3 : ((sentenceSpans page_text sents c0).get ⟨m, hm⟩).1 ≤
          ((sentenceSpans page_text sents c0).get ⟨m, hm⟩).2 :=
        ((sentenceSpans_spec page_text sents c0).2.2 _ (List.get_mem _ _ _)).2
      have h4 := spans_consec page_text sents c0 m (m + 1) hj rfl
      omega

theorem merged_groups_link (page_text : PyStr) (sents : List PyStr)
    (gs : List (List ℕ)) :
    ∀ a : ℕ, RangeBlocks a gs (sentenceSpans page_text sents 0).length →
      List.Chain' (fun g g' : List ℕ =>
        max ((sentenceSpans page_text sents 0).getD (g.headD 0) (0, 0)).1
            ((sentenceSpans page_text sents 0).getD ((g.getLast?).getD 0) (0, 0)).2 ≤
          ((sentenceSpans page_text sents 0).getD (g'.headD 0) (0, 0)).1) gs := by
  induction gs with
  | nil => intro a _; exact List.chain'_nil
  | cons g rest ih =>
    intro a h
    obtain ⟨k, hk, hg, hrest⟩ := h
    rw [List.chain'_cons']
    refine ⟨?_, ih (a + k) hrest⟩
    intro g' hg'
    cases rest with
    | nil => simp at hg'
    | cons g2 rest2 =>
      rw [List.head?_cons, Option.mem_some_iff] at hg'
      subst hg'
      obtain ⟨k2, hk2, hg2, hrest2⟩ := hrest
      have hb1 : a + k + k2 ≤ (sentenceSpans page_text sents 0).length :=
        rangeBlocks_le rest2 (a + k + k2) _ hrest2
      have hak : a + k < (sentenceSpans page_text sents 0).length := by omega
      have hak1 : a + k - 1 < (sentenceSpans page_text sents 0).length := by omega
      have ha : a < (sentenceSpans page_text sents 0).length := by omega
      rw [hg, hg2, range'_headD a k hk, range'_headD (a + k) k2 hk2,
        range'_getLastD a k hk]
      rw [getD_lt _ (0, 0) a ha, getD_lt _ (0, 0) (a + k - 1) hak1,
        getD_lt _ (0, 0) (a + k) hak]
      have h1 := spans_start_mono page_text sents 0 (a + k) hak a (by omega)
      have h2 := spans_consec page_text sents 0 (a + k - 1) (a + k) hak (by omega)
      omega

theorem semantic_chunk_mem (embed : List PyStr → List (List ℚ))
    (cos : List ℚ → List ℚ → ℚ) (tok : PyStr → ℕ) (page_data : PageData)
    (similarity_threshold : ℚ) (max_tokens : ℕ) :
    ∀ c ∈ semantic_chunk embed cos tok page_data similarity_threshold max_tokens,
      c.chunk_text = pySlice page_data.text c.char_start c.char_end ∧
      c.token_count = tok c.chunk_text ∧
      (c.token_count ≤ max_tokens ∨ isSingleWord c.chunk_text ∨
        ((split_sentences page_data.text).length = 1 ∧
          c.chunk_text = (split_sentences page_data.text).headD [])) := by
  intro c hc
  unfold semantic_chunk at hc
  dsimp only at hc
  split at hc
  · exact absurd hc (List.not_mem_nil c)
  · split at hc
    · exact absurd hc (List.not_mem_nil c)
    · split at hc
      · rename_i hone
        rw [List.mem_singleton] at hc
        subst hc
        obtain ⟨s, hs⟩ := List.length_eq_one.mp hone
        refine ⟨rfl, rfl, Or.inr (Or.inr ⟨hone, ?_⟩)⟩
        dsimp only
        rw [hs]
        exact single_sentence_text page_data.text s hs
      · rw [List.mem_flatMap] at hc
        obtain ⟨g, hgmem, hc⟩ := hc
        have h := groupChunks_spec tok page_data.text page_data.doc_id page_data.page
          _ max_tokens g c hc
        refine ⟨h.1, h.2.1, ?_⟩
        rcases h.2.2.1 with h' | h'
        · exact Or.inl h'
        · exact Or.inr (Or.inl h')

theorem semantic_chunk_chain (embed : List PyStr → List (List ℚ))
    (cos : List ℚ → List ℚ → ℚ) (tok : PyStr → ℕ) (page_data : PageData)
    (similarity_threshold : ℚ) (max_tokens : ℕ)
    (hemb : (embed (split_sentences page_data.text)).length =
      (split_sentences page_data.text).length) :
    List.Chain' (fun a b : Chunk => a.char_start ≤ b.char_start)
      (semantic_chunk embed cos tok page_data similarity_threshold max_tokens) := by
  unfold semantic_chunk
  dsimp only
  split
  · exact List.chain'_nil
  · split
    · exact List.chain'_nil
    · split
      · exact List.chain'_singleton _
      · rename_i hstrip hsne hone
        have hslen :
            (sentenceSpans page_data.text (split_sentences page_data.text) 0).length =
            (split_sentences page_data.text).length :=
          (sentenceSpans_spec page_data.text (split_sentences page_data.text) 0).1
        have hsimlen :
            (adjacentSims embed cos (split_sentences page_data.text)).length =
            (embed (split_sentences page_data.text)).length - 1 := by
          unfold adjacentSims
          dsimp only
          rw [List.length_map, List.length_range]
        have hsl : (split_sentences page_data.text).length ≠ 0 := by
          intro h0
          apply hsne
          rw [List.isEmpty_iff]
          exact List.length_eq_zero.mp h0
        have hblocks : RangeBlocks 0
            (mergeTiny [] (buildGroups
              (adjacentSims embed cos (split_sentences page_data.text))
              similarity_threshold))
            (sentenceSpans page_data.text (split_sentences page_data.text) 0).length := by
          have hb := buildGroups_blocks
            (adjacentSims embed cos (split_sentences page_data.text))
            similarity_threshold
          have heq :
              (adjacentSims embed cos (split_sentences page_data.text)).length + 1 =
              (sentenceSpans page_data.text (split_sentences page_data.text) 0).length := by
            rw [hsimlen, hemb, hslen]
            omega
          rw [heq] at hb
          exact mergeTiny_blocks _ [] 0 0 _ rfl hb
        refine chain'_flatMap_of_bounds _ (fun c : Chunk => c.char_start)
          (fun g : List ℕ =>
            ((sentenceSpans page_data.text (split_sentences page_data.text) 0).getD
              (g.headD 0) (0, 0)).1)
          (fun g : List ℕ =>
            max ((sentenceSpans page_data.text (split_sentences page_data.text) 0).getD
                (g.headD 0) (0, 0)).1
              ((sentenceSpans page_data.text (split_sentences page_data.text) 0).getD
                ((g.getLast?).getD 0) (0, 0)).2)
          _ ?_ ?_ ?_ ?_
        · intro g _
          exact groupChunks_chain tok page_data.text page_data.doc_id page_data.page
            _ max_tokens g
        · intro g _ c hc
          have h := groupChunks_spec tok page_data.text page_data.doc_id page_data.page
            _ max_tokens g c hc
          exact ⟨h.2.2.2.1, h.2.2.2.2⟩
        · exact merged_groups_link page_data.text _ _ 0 hblocks
        · intro g _
          dsimp only
          omega

/-! ## C3 — sliding-window termination and forward progress -/

/-- C3: for every input text, base offset, positive token budget and
overlap budget, the sliding-window splitter terminates — it is a total
function returning at most one window per word — with strictly
increasing `char_start` values; the next window's start always advances
past the current start, and whenever the overlap walk would not
advance it, it is forced to one past the current window's end. -/
theorem sliding_window_split_progress (tok : PyStr → ℕ) (text : PyStr)
    (base_offset max_tokens overlap_tokens : ℕ) (hmax : 0 < max_tokens) :
    List.Chain' (fun a b : Window => a.char_start < b.char_start)
      (sliding_window_split tok text base_offset max_tokens overlap_tokens) ∧
    (sliding_window_split tok text base_offset max_tokens overlap_tokens).length ≤
      (wordSpans 0 text).length ∧
    (∀ start_w end_w : ℕ,
      overlapStart tok text (wordSpans 0 text) overlap_tokens start_w end_w end_w
          ≤ start_w →
      nextStart tok text (wordSpans 0 text) overlap_tokens start_w end_w =
        end_w + 1) ∧
    (∀ start_w end_w : ℕ, start_w ≤ end_w →
      start_w < nextStart tok text (wordSpans 0 text) overlap_tokens start_w end_w) := by
  refine ⟨(sliding_window_split_spec tok text base_offset max_tokens overlap_tokens).2.1,
    (sliding_window_split_spec tok text base_offset max_tokens overlap_tokens).2.2,
    ?_, ?_⟩
  · intro start_w end_w hle
    unfold nextStart
    rw [if_pos hle]
  · intro start_w end_w h
    exact nextStart_gt tok text (wordSpans 0 text) overlap_tokens start_w end_w h

/-- C3, witness at a concrete splitter input. -/
theorem sliding_window_split_progress_witness :
    0 < 4 ∧
    (List.Chain' (fun a b : Window => a.char_start < b.char_start)
      (sliding_window_split List.length "aaa bbb ccc".toList 10 4 2) ∧
    (sliding_window_split List.length "aaa bbb ccc".toList 10 4 2).length ≤
      (wordSpans 0 "aaa bbb ccc".toList).length ∧
    (∀ start_w end_w : ℕ,
      overlapStart List.length "aaa bbb ccc".toList
          (wordSpans 0 "aaa bbb ccc".toList) 2 start_w end_w end_w ≤ start_w →
      nextStart List.length "aaa bbb ccc".toList
          (wordSpans 0 "aaa bbb ccc".toList) 2 start_w end_w = end_w + 1) ∧
    (∀ start_w end_w : ℕ, start_w ≤ end_w →
      start_w < nextStart List.length "aaa bbb ccc".toList
        (wordSpans 0 "aaa bbb ccc".toList) 2 start_w end_w)) :=
  ⟨by decide,
    sliding_window_split_progress List.length "aaa bbb ccc".toList 10 4 2 (by decide)⟩

/-! ## C1 — offset fidelity of both chunkers -/

/-- C1: every chunk produced by `structural_chunk` or `semantic_chunk` —
including chunks emitted after whitespace trimming of a section and
sliding-window sub-chunks — stores exactly the page-text slice its
offsets denote: `chunk_text = page.text[char_start:char_end]`. -/
theorem chunk_offset_fidelity (embed : List PyStr → List (List ℚ))
    (cos : List ℚ → List ℚ → ℚ) (tok : PyStr → ℕ) (page_data : PageData)
    (similarity_threshold : ℚ) (max_tokens overlap_tokens : ℕ) :
    (∀ c ∈ structural_chunk tok page_data max_tokens overlap_tokens,
      c.chunk_text = pySlice page_data.text c.char_start c.char_end) ∧
    (∀ c ∈ semantic_chunk embed cos tok page_data similarity_threshold max_tokens,
      c.chunk_text = pySlice page_data.text c.char_start c.char_end) :=
  ⟨fun c hc => (structural_chunk_mem tok page_data max_tokens overlap_tokens c hc).1,
   fun c hc => (semantic_chunk_mem embed cos tok page_data similarity_threshold
     max_tokens c hc).1⟩

/-! ## C8 — the token budget and its exceptions -/

/-- C8: every chunk's `token_count` is the token count of its text, and
any chunk exceeding the `max_tokens` budget is either a single
indivisible word (non-empty, whitespace-free, so the splitter cannot
divide it) or, for the semantic chunker, the page's single sentence. -/
theorem chunk_token_budget (embed : List PyStr → List (List ℚ))
    (cos : List ℚ → List ℚ → ℚ) (tok : PyStr → ℕ) (page_data : PageData)
    (similarity_threshold : ℚ) (max_tokens overlap_tokens : ℕ) :
    (∀ c ∈ structural_chunk tok page_data max_tokens overlap_tokens,
      c.token_count = tok c.chunk_text ∧
      (c.token_count ≤ max_tokens ∨ isSingleWord c.chunk_text)) ∧
    (∀ c ∈ semantic_chunk embed cos tok page_data similarity_threshold max_tokens,
      c.token_count = tok c.chunk_text ∧
      (c.token_count ≤ max_tokens ∨ isSingleWord c.chunk_text ∨
        ((split_sentences page_data.text).length = 1 ∧
          c.chunk_text = (split_sentences page_data.text).headD []))) :=
  ⟨fun c hc => ⟨(structural_chunk_mem tok page_data max_tokens overlap_tokens c hc).2.1,
    (structural_chunk_mem tok page_data max_tokens overlap_tokens c hc).2.2⟩,
   fun c hc => ⟨(semantic_chunk_mem embed cos tok page_data similarity_threshold
      max_tokens c hc).2.1,
    (semantic_chunk_mem embed cos tok page_data similarity_threshold
      max_tokens c hc).2.2⟩⟩

/-! ## C9 — chunks of one pass are ordered by char_start -/

/-- C9: within one page, the chunk lists returned by one call to
`structural_chunk` and one call to `semantic_chunk` are ordered by
`char_start` (each chunk's `char_start` is ≥ the previous one's); the
embedding service is assumed to return one vector per sentence. -/
theorem chunk_order (embed : List PyStr → List (List ℚ))
    (cos : List ℚ → List ℚ → ℚ) (tok : PyStr → ℕ) (page_data : PageData)
    (similarity_threshold : ℚ) (max_tokens overlap_tokens : ℕ)
    (hemb : (embed (split_sentences page_data.text)).length =
      (split_sentences page_data.text).length) :
    List.Chain' (fun a b : Chunk => a.char_start ≤ b.char_start)
      (structural_chunk tok page_data max_tokens overlap_tokens) ∧
    List.Chain' (fun a b : Chunk => a.char_start ≤ b.char_start)
      (semantic_chunk embed cos tok page_data similarity_threshold max_tokens) :=
  ⟨structural_chunk_chain tok page_data max_tokens overlap_tokens,
   semantic_chunk_chain embed cos tok page_data similarity_threshold max_tokens hemb⟩

/-- C9, witness: a concrete two-sentence page under a one-vector-per-
sentence embedding oracle. -/
theorem chunk_order_witness :
    ((((fun ss : List PyStr => ss.map (fun _ => ([1] : List ℚ))))
        (split_sentences "Ab cd. Ef gh.".toList)).length =
      (split_sentences "Ab cd. Ef gh.".toList).length) ∧
    (List.Chain' (fun a b : Chunk => a.char_start ≤ b.char_start)
      (structural_chunk List.length
        ⟨"Ab cd. Ef gh.".toList, "d".toList, 1, []⟩ 4 2) ∧
    List.Chain' (fun a b : Chunk => a.char_start ≤ b.char_start)
      (semantic_chunk (fun ss : List PyStr => ss.map (fun _ => ([1] : List ℚ)))
        (fun _ _ => 1) List.length
        ⟨"Ab cd. Ef gh.".toList, "d".toList, 1, []⟩ (1 / 2) 4)) :=
  ⟨by rw [List.length_map],
   chunk_order (fun ss : List PyStr => ss.map (fun _ => ([1] : List ℚ)))
     (fun _ _ => 1) List.length ⟨"Ab cd. Ef gh.".toList, "d".toList, 1, []⟩
     (1 / 2) 4 2 (by rw [List.length_map])⟩

/-! ## C5 — reciprocal rank fusion -/

theorem dictGet_cons (e : PyStr × ℚ) (d : List (PyStr × ℚ)) (cid : PyStr) :
    dictGet (e :: d) cid = if e.1 = cid then e.2 else dictGet d cid := by
  unfold dictGet
  by_cases h : e.1 = cid
  · rw [List.find?_cons_of_pos _ (by simp [h])]
    simp [h]
  · rw [List.find?_cons_of_neg _ (by simp [h])]
    simp [h]

theorem keys_update (d : List (PyStr × ℚ)) (c : PyStr) (v : ℚ) :
    (d.map (fun e => if e.1 == c then (e.1, e.2 + v) else e)).map (·.1) =
      d.map (·.1) := by
  rw [List.map_map]
  apply List.map_congr_left
  intro e _
  show (if e.1 == c then (e.1, e.2 + v) else e).1 = e.1
  split <;> rfl

theorem dictGet_update_ne (d : List (PyStr × ℚ)) (c cid : PyStr) (v : ℚ)
    (hne : cid ≠ c) :
    dictGet (d.map (fun e => if e.1 == c then (e.1, e.2 + v) else e)) cid =
      dictGet d cid := by
  induction d with
  | nil => rfl
  | cons e d ih =>
    simp only [List.map_cons]
    rw [dictGet_cons, dictGet_cons]
    have hkey : (if e.1 == c then (e.1, e.2 + v) else e).1 = e.1 := by
      split <;> rfl
    rw [hkey]
    by_cases h : e.1 = cid
    · have hbeq : (e.1 == c) = false := by
        simp only [beq_eq_false_iff_ne, ne_eq]
        exact fun hc => hne (h ▸ hc)
      have hval : (if e.1 == c then (e.1, e.2 + v) else e) = e := by simp [hbeq]
      rw [hval, if_pos h, if_pos h]
    · rw [if_neg h, if_neg h]
      exact ih

theorem dictGet_update_eq (d : List (PyStr × ℚ)) (c : PyStr) (v : ℚ)
    (hc : ∃ e ∈ d, e.1 = c) :
    dictGet (d.map (fun e => if e.1 == c then (e.1, e.2 + v) else e)) c =
      dictGet d c + v := by
  induction d with
  | nil =>
    obtain ⟨e, he, _⟩ := hc
    cases he
  | cons e d ih =>
    simp only [List.map_cons]
    rw [dictGet_cons, dictGet_cons]
    have hkey : (if e.1 == c then (e.1, e.2 + v) else e).1 = e.1 := by
      split <;> rfl
    rw [hkey]
    by_cases h : e.1 = c
    · have hbeq : (e.1 == c) = true := by simp [h]
      have hval : (if e.1 == c then (e.1, e.2 + v) else e) = (e.1, e.2 + v) := by
        simp [hbeq]
      rw [hval, if_pos h, if_pos h]
    · have hbeq : (e.1 == c) = false := by simp [h]
      have hval : (if e.1 == c then (e.1, e.2 + v) else e) = e := by simp [hbeq]
      have hc' : ∃ e' ∈ d, e'.1 = c := by
        obtain ⟨e', he', hk⟩ := hc
        cases he' with
        | head => exact absurd hk h
        | tail _ hmem => exact ⟨e', hmem, hk⟩
      rw [hval, if_neg h, if_neg h]
      exact ih hc'

theorem dictGet_append_single (d : List (PyStr × ℚ)) (c cid : PyStr) (v : ℚ)
    (hnc : ∀ e ∈ d, e.1 ≠ c) :
    dictGet (d ++ [(c, v)]) cid = dictGet d cid + if cid = c then v else 0 := by
  induction d with
  | nil =>
    simp only [List.nil_append]
    rw [dictGet_cons]
    by_cases h : cid = c
    · rw [if_pos h.symm, if_pos h]
      simp [dictGet]
    · rw [if_neg (fun hc => h hc.symm), if_neg h]
      simp
  | cons e d ih =>
    simp only [List.cons_append]
    rw [dictGet_cons, dictGet_cons]
    by_cases h : e.1 = cid
    · have hne : cid ≠ c := fun hc => (hnc e (List.mem_cons_self e d)) (h.trans hc)
      rw [if_pos h, if_pos h, if_neg hne, add_zero]
    · rw [if_neg h, if_neg h]
      exact ih (fun e' he' => hnc e' (List.mem_cons_of_mem _ he'))

theorem dictGet_dictAdd (d : List (PyStr × ℚ)) (c cid : PyStr) (v : ℚ) :
    dictGet (dictAdd d c v) cid = dictGet d cid + if cid = c then v else 0 := by
  unfold dictAdd
  by_cases hany : (d.any (fun e => e.1 == c)) = true
  · rw [if_pos hany]
    by_cases h : cid = c
    · subst h
      rw [dictGet_update_eq]
      · simp
      · simpa only [List.any_eq_true, beq_iff_eq] using hany
    · rw [dictGet_update_ne d c cid v h]
      simp [h]
  · rw [if_neg hany]
    refine dictGet_append_single d c cid v ?_
    intro e he heq
    exact hany (List.any_eq_true.mpr ⟨e, he, by simp [heq]⟩)

theorem dictGet_foldl_items (k : ℕ) (items : List RankedItem)
    (d : List (PyStr × ℚ)) (cid : PyStr) :
    dictGet (items.foldl (fun d item =>
        dictAdd d item.chunk_id (1 / ((k : ℚ) + (item.rank : ℚ)))) d) cid =
      dictGet d cid + (items.map (fun it =>
        if it.chunk_id = cid then (1 : ℚ) / ((k : ℚ) + (it.rank : ℚ)) else 0)).sum := by
  induction items generalizing d with
  | nil => simp
  | cons it items ih =>
    simp only [List.foldl_cons, List.map_cons, List.sum_cons]
    rw [ih, dictGet_dictAdd]
    by_cases h : it.chunk_id = cid
    · rw [if_pos h.symm, if_pos h]
      ring
    · rw [if_neg (fun hc => h hc.symm), if_neg h]
      ring

theorem dictGet_rrfScores (lists : List (List RankedItem)) (k : ℕ) (cid : PyStr) :
    dictGet (rrfScores lists k) cid =
      (lists.map (fun res => (res.map (fun it =>
        if it.chunk_id = cid then (1 : ℚ) / ((k : ℚ) + (it.rank : ℚ)) else 0)).sum)).sum := by
  have aux : ∀ (ls : List (List RankedItem)) (d : List (PyStr × ℚ)),
      dictGet (ls.foldl (fun d results => results.foldl (fun d item =>
          dictAdd d item.chunk_id (1 / ((k : ℚ) + (item.rank : ℚ)))) d) d) cid =
        dictGet d cid + (ls.map (fun res => (res.map (fun it =>
          if it.chunk_id = cid then (1 : ℚ) / ((k : ℚ) + (it.rank : ℚ)) else 0)).sum)).sum := by
    intro ls
    induction ls with
    | nil => simp
    | cons res ls ih =>
      intro d
      simp only [List.foldl_cons, List.map_cons, List.sum_cons]
      rw [ih, dictGet_foldl_items]
      ring
  have h0 : dictGet [] cid = 0 := rfl
  unfold rrfScores
  rw [aux, h0, zero_add]

theorem keys_dictAdd_eq (d : List (PyStr × ℚ)) (c : PyStr) (v : ℚ) :
    (dictAdd d c v).map (·.1) =
      if d.any (fun e => e.1 == c) then d.map (·.1) else d.map (·.1) ++ [c] := by
  unfold dictAdd
  split
  · exact keys_update d c v
  · simp

theorem mem_keys_dictAdd (d : List (PyStr × ℚ)) (c : PyStr) (v : ℚ) (cid : PyStr) :
    cid ∈ (dictAdd d c v).map (·.1) ↔ cid ∈ d.map (·.1) ∨ cid = c := by
  rw [keys_dictAdd_eq]
  split
  · rename_i hany
    constructor
    · exact Or.inl
    · rintro (h | rfl)
      · exact h
      · obtain ⟨e, he, hk⟩ := List.any_eq_true.mp hany
        simp only [beq_iff_eq] at hk
        exact hk ▸ List.mem_map_of_mem (·.1) he
  · simp [List.mem_append]

theorem nodup_keys_dictAdd (d : List (PyStr × ℚ)) (c : PyStr) (v : ℚ)
    (h : (d.map (·.1)).Nodup) : ((dictAdd d c v).map (·.1)).Nodup := by
  rw [keys_dictAdd_eq]
  split
  · exact h
  · rename_i hany
    have hnotin : c ∉ d.map (·.1) := by
      intro hc
      obtain ⟨e, he, hk⟩ := List.mem_map.mp hc
      exact hany (List.any_eq_true.mpr ⟨e, he, by simp [hk]⟩)
    rw [List.nodup_append]
    refine ⟨h, List.nodup_singleton c, ?_⟩
    intro x hx hx1
    rw [List.mem_singleton] at hx1
    exact hnotin (hx1 ▸ hx)

theorem nodup_keys_foldl_items (k : ℕ) (items : List RankedItem)
    (d : List (PyStr × ℚ)) (h : (d.map (·.1)).Nodup) :
    (((items.foldl (fun d item =>
        dictAdd d item.chunk_id (1 / ((k : ℚ) + (item.rank : ℚ)))) d)).map (·.1)).Nodup := by
  induction items generalizing d with
  | nil => exact h
  | cons it items ih =>
    simp only [List.foldl_cons]
    exact ih _ (nodup_keys_dictAdd _ _ _ h)

theorem nodup_keys_rrfScores (lists : List (List RankedItem)) (k : ℕ) :
    ((rrfScores lists k).map (·.1)).Nodup := by
  have aux : ∀ (ls : List (List RankedItem)) (d : List (PyStr × ℚ)),
      (d.map (·.1)).Nodup →
      ((ls.foldl (fun d results => results.foldl (fun d item =>
          dictAdd d item.chunk_id (1 / ((k : ℚ) + (item.rank : ℚ)))) d) d).map (·.1)).Nodup := by
    intro ls
    induction ls with
    | nil => exact fun d h => h
    | cons res ls ih =>
      intro d h
      simp only [List.foldl_cons]
      exact ih _ (nodup_keys_foldl_items k res d h)
  exact aux lists [] (by simp)

theorem mem_keys_foldl_items (k : ℕ) (items : List RankedItem)
    (d : List (PyStr × ℚ)) (cid : PyStr) :
    (cid ∈ ((items.foldl (fun d item =>
        dictAdd d item.chunk_id (1 / ((k : ℚ) + (item.rank : ℚ)))) d)).map (·.1)) ↔
      cid ∈ d.map (·.1) ∨ ∃ it ∈ items, it.chunk_id = cid := by
  induction items generalizing d with
  | nil => simp
  | cons it items ih =>
    simp only [List.foldl_cons]
    rw [ih, mem_keys_dictAdd]
    constructor
    · rintro ((h | h) | ⟨it', hit', h⟩)
      · exact Or.inl h
      · exact Or.inr ⟨it, List.mem_cons_self it items, h.symm⟩
      · exact Or.inr ⟨it', List.mem_cons_of_mem _ hit', h⟩
    · rintro (h | ⟨it', hit', h⟩)
      · exact Or.inl (Or.inl h)
      · rcases List.mem_cons.mp hit' with rfl | hmem
        · exact Or.inl (Or.inr h.symm)
        · exact Or.inr ⟨it', hmem, h⟩

theorem mem_keys_rrfScores (lists : List (List RankedItem)) (k : ℕ) (cid : PyStr) :
    cid ∈ (rrfScores lists k).map (·.1) ↔
      ∃ res ∈ lists, ∃ it ∈ res, it.chunk_id = cid := by
  have aux : ∀ (ls : List (List RankedItem)) (d : List (PyStr × ℚ)),
      (cid ∈ ((ls.foldl (fun d results => results.foldl (fun d item =>
          dictAdd d item.chunk_id (1 / ((k : ℚ) + (item.rank : ℚ)))) d) d)).map (·.1)) ↔
        cid ∈ d.map (·.1) ∨ ∃ res ∈ ls, ∃ it ∈ res, it.chunk_id = cid := by
    intro ls
    induction ls with
    | nil => simp
    | cons res ls ih =>
      intro d
      simp only [List.foldl_cons]
      rw [ih, mem_keys_foldl_items]
      constructor
      · rintro ((h | h) | h)
        · exact Or.inl h
        · exact Or.inr ⟨res, List.mem_cons_self res ls, h⟩
        · obtain ⟨res', hres', hit⟩ := h
          exact Or.inr ⟨res', List.mem_cons_of_mem _ hres', hit⟩
      · rintro (h | ⟨res', hres', hit⟩)
        · exact Or.inl (Or.inl h)
        · rcases List.mem_cons.mp hres' with rfl | hmem
          · exact Or.inl (Or.inr hit)
          · exact Or.inr ⟨res', hmem, hit⟩
  rw [rrfScores, aux]
  simp

theorem dictGet_of_mem (d : List (PyStr × ℚ)) (hnd : (d.map (·.1)).Nodup)
    (e : PyStr × ℚ) (he : e ∈ d) : dictGet d e.1 = e.2 := by
  induction d with
  | nil => cases he
  | cons x d ih =>
    rw [dictGet_cons]
    simp only [List.map_cons, List.nodup_cons] at hnd
    rcases List.mem_cons.mp he with rfl | he'
    · simp
    · have hx : x.1 ≠ e.1 := by
        intro hkey
        exact hnd.1 (hkey ▸ List.mem_map_of_mem (·.1) he')
      rw [if_neg hx]
      exact ih hnd.2 he'

theorem mem_insertDesc (x y : PyStr × ℚ) (l : List (PyStr × ℚ)) :
    y ∈ insertDesc x l ↔ y = x ∨ y ∈ l := by
  induction l with
  | nil => simp [insertDesc]
  | cons z zs ih =>
    unfold insertDesc
    split
    · simp [List.mem_cons]
    · simp only [List.mem_cons, ih]
      tauto

theorem pairwise_insertDesc (x : PyStr × ℚ) (l : List (PyStr × ℚ))
    (h : List.Pairwise (fun a b => b.2 ≤ a.2) l) :
    List.Pairwise (fun a b => b.2 ≤ a.2) (insertDesc x l) := by
  induction l with
  | nil => simp [insertDesc]
  | cons z zs ih =>
    rcases List.pairwise_cons.mp h with ⟨hz, hzs⟩
    unfold insertDesc
    split
    · rename_i hlt
      apply List.pairwise_cons.mpr
      refine ⟨?_, h⟩
      intro y hy
      rcases List.mem_cons.mp hy with rfl | hy'
      · exact le_of_lt hlt
      · exact le_trans (hz y hy') (le_of_lt hlt)
    · rename_i hnlt
      apply List.pairwise_cons.mpr
      refine ⟨?_, ih hzs⟩
      intro y hy
      rcases (mem_insertDesc x y zs).mp hy with rfl | hy'
      · exact le_of_not_lt hnlt
      · exact hz y hy'

theorem perm_insertDesc (x : PyStr × ℚ) (l : List (PyStr × ℚ)) :
    List.Perm (insertDesc x l) (x :: l) := by
  induction l with
  | nil => exact List.Perm.refl _
  | cons z zs ih =>
    unfold insertDesc
    split
    · exact List.Perm.refl _
    · exact List.Perm.trans (List.Perm.cons z ih) (List.Perm.swap x z zs)

theorem pairwise_sortDescStable (l : List (PyStr × ℚ)) :
    List.Pairwise (fun a b => b.2 ≤ a.2) (sortDescStable l) := by
  have aux : ∀ (l acc : List (PyStr × ℚ)),
      List.Pairwise (fun a b => b.2 ≤ a.2) acc →
      List.Pairwise (fun a b => b.2 ≤ a.2)
        (l.foldl (fun acc x => insertDesc x acc) acc) := by
    intro l
    induction l with
    | nil => exact fun acc h => h
    | cons y l ih =>
      intro acc h
      simp only [List.foldl_cons]
      exact ih _ (pairwise_insertDesc y acc h)
  exact aux l [] (by simp)

theorem perm_sortDescStable (l : List (PyStr × ℚ)) :
    List.Perm (sortDescStable l) l := by
  have aux : ∀ (l acc : List (PyStr × ℚ)),
      List.Perm (l.foldl (fun acc x => insertDesc x acc) acc) (acc ++ l) := by
    intro l
    induction l with
    | nil =>
      intro acc
      rw [List.foldl_nil, List.append_nil]
    | cons y l ih =>
      intro acc
      simp only [List.foldl_cons]
      have h1 := ih (insertDesc y acc)
      have h2 : List.Perm (insertDesc y acc ++ l) ((y :: acc) ++ l) :=
        (perm_insertDesc y acc).append_right l
      have h3 : List.Perm ((y :: acc) ++ l) (acc ++ y :: l) := by
        simp only [List.cons_append]
        exact List.perm_middle.symm
      exact h1.trans (h2.trans h3)
  simpa using aux l []

theorem pairwise_enumFrom {α : Type} {R : α → α → Prop} (l : List α) (n : ℕ)
    (h : List.Pairwise R l) :
    List.Pairwise (fun p q : ℕ × α => R p.2 q.2) (l.enumFrom n) := by
  induction l generalizing n with
  | nil => simp
  | cons a l ih =>
    rw [List.enumFrom_cons]
    rcases List.pairwise_cons.mp h with ⟨ha, hl⟩
    apply List.pairwise_cons.mpr
    refine ⟨?_, ih (n + 1) hl⟩
    intro q hq
    have hq2 : q.2 ∈ l := by
      have := List.mem_map_of_mem Prod.snd hq
      rwa [List.enumFrom_map_snd] at this
    exact ha q.2 hq2

theorem rrf_ids_eq (lists : List (List RankedItem)) (k : ℕ) :
    (reciprocal_rank_fusion lists k).map (·.chunk_id) =
      (sortDescStable (rrfScores lists k)).map (·.1) := by
  unfold reciprocal_rank_fusion
  rw [List.map_map, List.enum]
  rw [show ((fun f : FusedItem => f.chunk_id) ∘
      fun p : ℕ × (PyStr × ℚ) => (⟨p.2.1, p.2.2, p.1 + 1⟩ : FusedItem)) =
      ((fun e : PyStr × ℚ => e.1) ∘ Prod.snd) from rfl]
  rw [← List.map_map, List.enumFrom_map_snd]

/-- C5: reciprocal rank fusion assigns every chunk id the sum of
`1/(k + rank)` over the input lists (ids absent from a list contribute
nothing for it), every output entry carries exactly that fused score,
the output is sorted by descending fused score and re-ranked `1..N`, an
id appears in the output iff it appears in some input list, and on the
spec's concrete example (`listA = [(x,1),(y,2)]`, `listB =
[(y,1),(z,2)]`, `k = 60`) the fused order is `[y, x, z]`. -/
theorem reciprocal_rank_fusion_spec (lists : List (List RankedItem)) (k : ℕ) :
    (∀ cid, dictGet (rrfScores lists k) cid =
      (lists.map (fun res => (res.map (fun it =>
        if it.chunk_id = cid then (1 : ℚ) / ((k : ℚ) + (it.rank : ℚ)) else 0)).sum)).sum) ∧
    (∀ f ∈ reciprocal_rank_fusion lists k,
        f.rrf_score = dictGet (rrfScores lists k) f.chunk_id) ∧
    List.Pairwise (fun a b : FusedItem => b.rrf_score ≤ a.rrf_score)
      (reciprocal_rank_fusion lists k) ∧
    (∀ i (h : i < (reciprocal_rank_fusion lists k).length),
        ((reciprocal_rank_fusion lists k).get ⟨i, h⟩).rank = i + 1) ∧
    (∀ cid, cid ∈ (reciprocal_rank_fusion lists k).map (·.chunk_id) ↔
        ∃ res ∈ lists, ∃ it ∈ res, it.chunk_id = cid) ∧
    (reciprocal_rank_fusion [[⟨['x'], 1⟩, ⟨['y'], 2⟩], [⟨['y'], 1⟩, ⟨['z'], 2⟩]] 60).map
        (·.chunk_id) = [['y'], ['x'], ['z']] := by
  refine ⟨fun cid => dictGet_rrfScores lists k cid, ?_, ?_, ?_, ?_, ?_⟩
  · intro f hf
    unfold reciprocal_rank_fusion at hf
    obtain ⟨p, hp, hfp⟩ := List.mem_map.mp hf
    have hp2 : p.2 ∈ sortDescStable (rrfScores lists k) := by
      have := List.mem_map_of_mem Prod.snd hp
      rwa [List.enum, List.enumFrom_map_snd] at this
    have hp2' : p.2 ∈ rrfScores lists k :=
      (perm_sortDescStable (rrfScores lists k)).mem_iff.mp hp2
    have := dictGet_of_mem (rrfScores lists k) (nodup_keys_rrfScores lists k) p.2 hp2'
    rw [← hfp]
    exact this.symm
  · unfold reciprocal_rank_fusion
    apply List.Pairwise.map
    · intro p q hpq
      exact hpq
    · rw [List.enum]
      exact pairwise_enumFrom _ 0
        (pairwise_sortDescStable (rrfScores lists k))
  · intro i h
    unfold reciprocal_rank_fusion at *
    rw [List.get_eq_getElem]
    simp only [List.getElem_map, List.enum, List.getElem_enumFrom]
    omega
  · intro cid
    rw [rrf_ids_eq]
    have hperm := (perm_sortDescStable (rrfScores lists k)).map
      (fun e : PyStr × ℚ => e.1)
    rw [hperm.mem_iff]
    exact mem_keys_rrfScores lists k cid
  · norm_num +decide [reciprocal_rank_fusion, rrfScores, dictAdd, sortDescStable,
      insertDesc, List.foldl, List.enum, List.enumFrom]

/-! ## C6 — citation marker grammar -/

theorem takeWhile_append_all {p : Char → Bool} (xs ys : PyStr)
    (h : ∀ c ∈ xs, p c = true) :
    (xs ++ ys).takeWhile p = xs ++ ys.takeWhile p := by
  induction xs with
  | nil => simp
  | cons c xs ih =>
    simp only [List.cons_append,
      List.takeWhile_cons_of_pos (h c (List.mem_cons_self c xs))]
    rw [ih (fun c' hc' => h c' (List.mem_cons_of_mem _ hc'))]

theorem dropWhile_append_all {p : Char → Bool} (xs ys : PyStr)
    (h : ∀ c ∈ xs, p c = true) :
    (xs ++ ys).dropWhile p = ys.dropWhile p := by
  induction xs with
  | nil => simp
  | cons c xs ih =>
    simp only [List.cons_append,
      List.dropWhile_cons_of_pos (h c (List.mem_cons_self c xs))]
    exact ih (fun c' hc' => h c' (List.mem_cons_of_mem _ hc'))

theorem dropWhile_append_stop {p : Char → Bool} (xs ys : PyStr)
    (h : xs.dropWhile p ≠ []) :
    (xs ++ ys).dropWhile p = xs.dropWhile p ++ ys := by
  induction xs with
  | nil => exact absurd rfl h
  | cons c xs ih =>
    cases hc : p c with
    | true =>
      rw [List.dropWhile_cons_of_pos hc] at h
      simp only [List.cons_append, List.dropWhile_cons_of_pos hc]
      exact ih h
    | false =>
      have hcp : ¬ p c = true := by simp [hc]
      simp only [List.cons_append, List.dropWhile_cons_of_neg hcp]

theorem isPySpace_cases {c : Char} (h : isPySpace c = true) :
    c = ' ' ∨ c = '\t' ∨ c = '\n' ∨ c = '\r' ∨ c = '\x0b' ∨ c = '\x0c' := by
  unfold isPySpace at h
  simp only [Bool.or_eq_true, decide_eq_true_eq] at h
  tauto

theorem isPySpace_props {c : Char} (h : isPySpace c = true) :
    c ≠ '|' ∧ c ≠ ']' ∧ c ≠ '[' ∧ c.isDigit = false := by
  rcases isPySpace_cases h with rfl | rfl | rfl | rfl | rfl | rfl <;>
    exact ⟨by decide, by decide, by decide, by decide⟩

theorem isDigit_props {c : Char} (h : c.isDigit = true) :
    c ≠ '|' ∧ c ≠ ']' ∧ c ≠ ':' ∧ c ≠ '[' ∧ isPySpace c = false := by
  refine ⟨fun hc => ?_, fun hc => ?_, fun hc => ?_, fun hc => ?_, ?_⟩
  · subst hc; exact absurd h (by decide)
  · subst hc; exact absurd h (by decide)
  · subst hc; exact absurd h (by decide)
  · subst hc; exact absurd h (by decide)
  · cases hc : isPySpace c with
    | false => rfl
    | true =>
      rw [(isPySpace_props hc).2.2.2] at h
      cases h

theorem takeWhile_space_of_digits_head (d X : PyStr) (hne : d ≠ [])
    (hd : ∀ c ∈ d, c.isDigit = true) :
    ((d ++ X).takeWhile isPySpace) = [] := by
  cases d with
  | nil => exact absurd rfl hne
  | cons c d' =>
    have : isPySpace c = false := (isDigit_props (hd c (List.mem_cons_self c d'))).2.2.2.2
    simp only [List.cons_append]
    exact List.takeWhile_cons_of_neg (by simp [this])

theorem takeWhile_digit_of_space_sep (w : PyStr) (sep : Char) (X : PyStr)
    (hw : ∀ c ∈ w, isPySpace c = true) (hsep : sep.isDigit = false) :
    ((w ++ sep :: X).takeWhile Char.isDigit) = [] := by
  cases w with
  | nil =>
    simp only [List.nil_append]
    exact List.takeWhile_cons_of_neg (by simp [hsep])
  | cons c w' =>
    have : c.isDigit = false := (isPySpace_props (hw c (List.mem_cons_self c w'))).2.2.2
    simp only [List.cons_append]
    exact List.takeWhile_cons_of_neg (by simp [this])

theorem ne_nil_isEmpty {l : PyStr} (h : l ≠ []) : l.isEmpty = false := by
  cases l with
  | nil => exact absurd rfl h
  | cons c l => rfl

theorem pyStrip_pad (w1 x w2 : PyStr)
    (h1 : ∀ c ∈ w1, isPySpace c = true) (h2 : ∀ c ∈ w2, isPySpace c = true) :
    pyStrip (w1 ++ (x ++ w2)) = pyStrip x := by
  unfold pyStrip
  rw [dropWhile_append_all w1 _ h1]
  by_cases hx : x.dropWhile isPySpace = []
  · have hxall : ∀ c ∈ x, isPySpace c = true := List.dropWhile_eq_nil_iff.mp hx
    have hw2 : w2.dropWhile isPySpace = [] := List.dropWhile_eq_nil_iff.mpr h2
    rw [dropWhile_append_all x w2 hxall, hx, hw2]
  · rw [dropWhile_append_stop x w2 hx, List.reverse_append]
    rw [dropWhile_append_all w2.reverse _
      (fun c hc => h2 c (List.mem_reverse.mp hc))]

theorem extractAux_step_some (r1 g1 : PyStr) (pg a b n : ℕ)
    (h : matchCitationAfterBracket r1 = some (g1, pg, a, b, n)) :
    extractAux ('[' :: r1) =
      ⟨pyStrip g1, pg, a, b, '[' :: r1.take n⟩ :: extractAux (r1.drop n) := by
  rw [extractAux, if_pos rfl, h]

theorem extractAux_skip (pre rest : PyStr) (hpre : ∀ c ∈ pre, c ≠ '[') :
    extractAux (pre ++ rest) = extractAux rest := by
  induction pre with
  | nil => rfl
  | cons c pre ih =>
    simp only [List.cons_append]
    rw [extractAux, if_neg (hpre c (List.mem_cons_self c pre))]
    exact ih (fun c' h' => hpre c' (List.mem_cons_of_mem _ h'))

theorem matchCitation_marker (doc w1 w2 w3 d1 w4 w5 d2 d3 post : PyStr)
    (hdocne : doc ≠ []) (hdoc : ∀ c ∈ doc, c ≠ '|' ∧ c ≠ ']')
    (hw1 : ∀ c ∈ w1, isPySpace c = true) (hw2 : ∀ c ∈ w2, isPySpace c = true)
    (hw3 : ∀ c ∈ w3, isPySpace c = true) (hw4 : ∀ c ∈ w4, isPySpace c = true)
    (hw5 : ∀ c ∈ w5, isPySpace c = true)
    (hd1ne : d1 ≠ []) (hd1 : ∀ c ∈ d1, c.isDigit = true)
    (hd2ne : d2 ≠ []) (hd2 : ∀ c ∈ d2, c.isDigit = true)
    (hd3ne : d3 ≠ []) (hd3 : ∀ c ∈ d3, c.isDigit = true) :
    matchCitationAfterBracket
        (w1 ++ (doc ++ (w2 ++ '|' :: (w3 ++ (d1 ++ (w4 ++ '|' ::
          (w5 ++ (d2 ++ ':' :: (d3 ++ ']' :: post))))))))) =
      some (w1 ++ (doc ++ w2), parseNat d1, parseNat d2, parseNat d3,
        (w1 ++ (doc ++ w2)).length + 1 + w3.length + d1.length + w4.length + 1 +
          w5.length + d2.length + 1 + d3.length + 1) := by
  have hpredw : ∀ (w : PyStr), (∀ c ∈ w, isPySpace c = true) →
      ∀ c ∈ w, (!(c = '|' || c = ']')) = true := by
    intro w hw c hc
    have := isPySpace_props (hw c hc)
    simp [this.1, this.2.1]
  have hpredd : ∀ c ∈ doc, (!(c = '|' || c = ']')) = true := by
    intro c hc
    simp [(hdoc c hc).1, (hdoc c hc).2]
  have hg1 : ((w1 ++ (doc ++ (w2 ++ '|' :: (w3 ++ (d1 ++ (w4 ++ '|' ::
      (w5 ++ (d2 ++ ':' :: (d3 ++ ']' :: post)))))))))).takeWhile
        (fun c => !(c = '|' || c = ']')) = w1 ++ (doc ++ w2) := by
    rw [takeWhile_append_all _ _ (hpredw w1 hw1),
      takeWhile_append_all _ _ hpredd,
      takeWhile_append_all _ _ (hpredw w2 hw2),
      List.takeWhile_cons_of_neg (by decide)]
    simp
  have hg1ne : (w1 ++ (doc ++ w2)) ≠ [] := by
    intro h
    rcases List.append_eq_nil.mp h with ⟨-, h2⟩
    rcases List.append_eq_nil.mp h2 with ⟨hdnil, -⟩
    exact hdocne hdnil
  have hdA : (w1 ++ (doc ++ (w2 ++ '|' :: (w3 ++ (d1 ++ (w4 ++ '|' ::
      (w5 ++ (d2 ++ ':' :: (d3 ++ ']' :: post))))))))).drop
        (w1 ++ (doc ++ w2)).length =
      '|' :: (w3 ++ (d1 ++ (w4 ++ '|' :: (w5 ++ (d2 ++ ':' ::
        (d3 ++ ']' :: post)))))) := by
    rw [show w1 ++ (doc ++ (w2 ++ '|' :: (w3 ++ (d1 ++ (w4 ++ '|' ::
        (w5 ++ (d2 ++ ':' :: (d3 ++ ']' :: post)))))))) =
      (w1 ++ (doc ++ w2)) ++ '|' :: (w3 ++ (d1 ++ (w4 ++ '|' ::
        (w5 ++ (d2 ++ ':' :: (d3 ++ ']' :: post)))))) by simp]
    exact List.drop_left _ _
  have htw2 : ((w3 ++ (d1 ++ (w4 ++ '|' :: (w5 ++ (d2 ++ ':' ::
      (d3 ++ ']' :: post))))))).takeWhile isPySpace = w3 := by
    rw [takeWhile_append_all _ _ hw3,
      takeWhile_space_of_digits_head d1 _ hd1ne hd1, List.append_nil]
  have hdw3 : ((w3 ++ (d1 ++ (w4 ++ '|' :: (w5 ++ (d2 ++ ':' ::
      (d3 ++ ']' :: post))))))).drop w3.length =
      d1 ++ (w4 ++ '|' :: (w5 ++ (d2 ++ ':' :: (d3 ++ ']' :: post)))) :=
    List.drop_left _ _
  have htw3 : ((d1 ++ (w4 ++ '|' :: (w5 ++ (d2 ++ ':' ::
      (d3 ++ ']' :: post)))))).takeWhile Char.isDigit = d1 := by
    rw [takeWhile_append_all _ _ hd1,
      takeWhile_digit_of_space_sep w4 '|' _ hw4 (by decide), List.append_nil]
  have hdB : ((w3 ++ (d1 ++ (w4 ++ '|' :: (w5 ++ (d2 ++ ':' ::
      (d3 ++ ']' :: post))))))).drop (w3.length + d1.length) =
      w4 ++ '|' :: (w5 ++ (d2 ++ ':' :: (d3 ++ ']' :: post))) := by
    rw [show w3 ++ (d1 ++ (w4 ++ '|' :: (w5 ++ (d2 ++ ':' ::
        (d3 ++ ']' :: post))))) =
      (w3 ++ d1) ++ (w4 ++ '|' :: (w5 ++ (d2 ++ ':' :: (d3 ++ ']' :: post))))
      by simp]
    exact List.drop_left' (by simp)
  have htw4 : ((w4 ++ '|' :: (w5 ++ (d2 ++ ':' ::
      (d3 ++ ']' :: post))))).takeWhile isPySpace = w4 := by
    rw [takeWhile_append_all _ _ hw4, List.takeWhile_cons_of_neg (by decide),
      List.append_nil]
  have hdC : ((w4 ++ '|' :: (w5 ++ (d2 ++ ':' ::
      (d3 ++ ']' :: post))))).drop w4.length =
      '|' :: (w5 ++ (d2 ++ ':' :: (d3 ++ ']' :: post))) :=
    List.drop_left _ _
  have htw5 : ((w5 ++ (d2 ++ ':' :: (d3 ++ ']' :: post)))).takeWhile isPySpace
      = w5 := by
    rw [takeWhile_append_all _ _ hw5,
      takeWhile_space_of_digits_head d2 _ hd2ne hd2, List.append_nil]
  have hdw5 : ((w5 ++ (d2 ++ ':' :: (d3 ++ ']' :: post)))).drop w5.length =
      d2 ++ ':' :: (d3 ++ ']' :: post) :=
    List.drop_left _ _
  have htw6 : ((d2 ++ ':' :: (d3 ++ ']' :: post))).takeWhile Char.isDigit
      = d2 := by
    rw [takeWhile_append_all _ _ hd2, List.takeWhile_cons_of_neg (by decide),
      List.append_nil]
  have hdD : ((w5 ++ (d2 ++ ':' :: (d3 ++ ']' :: post)))).drop
      (w5.length + d2.length) = ':' :: (d3 ++ ']' :: post) := by
    rw [show w5 ++ (d2 ++ ':' :: (d3 ++ ']' :: post)) =
      (w5 ++ d2) ++ ':' :: (d3 ++ ']' :: post) by simp]
    exact List.drop_left' (by simp)
  have htw7 : ((d3 ++ ']' :: post)).takeWhile Char.isDigit = d3 := by
    rw [takeWhile_append_all _ _ hd3, List.takeWhile_cons_of_neg (by decide),
      List.append_nil]
  have hdE : ((d3 ++ ']' :: post)).drop d3.length = ']' :: post :=
    List.drop_left _ _
  simp only [matchCitationAfterBracket]
  rw [hg1, ne_nil_isEmpty hg1ne, hdA]
  simp only [List.head?_cons, List.tail_cons]
  rw [htw2, hdw3, htw3, ne_nil_isEmpty hd1ne, hdB, htw4, hdC]
  simp only [List.head?_cons, List.tail_cons]
  rw [htw5, hdw5, htw6, ne_nil_isEmpty hd2ne, hdD]
  simp only [List.head?_cons, List.tail_cons]
  rw [htw7, ne_nil_isEmpty hd3ne, hdE]
  simp only [List.head?_cons]
  simp

/-- C6, counterexample: the claim says whitespace around the fields is
tolerated, but a marker with a space between `char_end` and the closing
bracket (`"[d | 1 | 2:3 ]"`) is not matched at all, while the same
marker without that space is. -/
theorem extract_citations_ws_counterexample :
    extract_citations "[d | 1 | 2:3 ]".toList = [] ∧
    extract_citations "[d | 1 | 2:3]".toList =
      [⟨"d".toList, 1, 2, 3, "[d | 1 | 2:3]".toList⟩] := by
  constructor
  · simp [extract_citations, extractAux, matchCitationAfterBracket, pyStrip,
      isPySpace, parseNat]
  · simp [extract_citations, extractAux, matchCitationAfterBracket, pyStrip,
      isPySpace, parseNat]

/-- C6, amended: `extract_citations` matches every marker
`[doc | page | start:end]` (non-empty doc of non-pipe/non-bracket
characters, non-empty digit runs) occurring after a `[`-free prefix,
preserving the exact matched substring in `raw`; whitespace is
tolerated inside the doc-id field, around the page field and before
`char_start`, but not between `char_start` and the colon, after the
colon, or between `char_end` and the closing bracket. -/
theorem extract_citations_marker (pre post w1 doc w2 w3 d1 w4 w5 d2 d3 : PyStr)
    (hpre : ∀ c ∈ pre, c ≠ '[')
    (hdocne : doc ≠ []) (hdoc : ∀ c ∈ doc, c ≠ '|' ∧ c ≠ ']')
    (hw1 : ∀ c ∈ w1, isPySpace c = true) (hw2 : ∀ c ∈ w2, isPySpace c = true)
    (hw3 : ∀ c ∈ w3, isPySpace c = true) (hw4 : ∀ c ∈ w4, isPySpace c = true)
    (hw5 : ∀ c ∈ w5, isPySpace c = true)
    (hd1ne : d1 ≠ []) (hd1 : ∀ c ∈ d1, c.isDigit = true)
    (hd2ne : d2 ≠ []) (hd2 : ∀ c ∈ d2, c.isDigit = true)
    (hd3ne : d3 ≠ []) (hd3 : ∀ c ∈ d3, c.isDigit = true) :
    extract_citations (pre ++ (citationMarker w1 doc w2 w3 d1 w4 w5 d2 d3 ++ post)) =
      ⟨pyStrip doc, parseNat d1, parseNat d2, parseNat d3,
        citationMarker w1 doc w2 w3 d1 w4 w5 d2 d3⟩ :: extract_citations post := by
  unfold extract_citations
  rw [extractAux_skip pre _ hpre]
  have hT : citationMarker w1 doc w2 w3 d1 w4 w5 d2 d3 ++ post =
      '[' :: ((w1 ++ (doc ++ (w2 ++ '|' :: (w3 ++ (d1 ++ (w4 ++ '|' ::
        (w5 ++ (d2 ++ ':' :: (d3 ++ [']']))))))))) ++ post) := by
    simp [citationMarker]
  have hTnested : (w1 ++ (doc ++ (w2 ++ '|' :: (w3 ++ (d1 ++ (w4 ++ '|' ::
      (w5 ++ (d2 ++ ':' :: (d3 ++ [']']))))))))) ++ post =
      w1 ++ (doc ++ (w2 ++ '|' :: (w3 ++ (d1 ++ (w4 ++ '|' ::
        (w5 ++ (d2 ++ ':' :: (d3 ++ ']' :: post)))))))) := by
    simp
  rw [hT, extractAux_step_some _ _ _ _ _ _
    (by rw [hTnested]
        exact matchCitation_marker doc w1 w2 w3 d1 w4 w5 d2 d3 post hdocne hdoc
          hw1 hw2 hw3 hw4 hw5 hd1ne hd1 hd2ne hd2 hd3ne hd3)]
  have hlen : ((w1 ++ (doc ++ (w2 ++ '|' :: (w3 ++ (d1 ++ (w4 ++ '|' ::
      (w5 ++ (d2 ++ ':' :: (d3 ++ [']'])))))))))).length =
      (w1 ++ (doc ++ w2)).length + 1 + w3.length + d1.length + w4.length + 1 +
        w5.length + d2.length + 1 + d3.length + 1 := by
    simp [List.length_append]
    omega
  rw [List.take_left' hlen, List.drop_left' hlen]
  have hdocid : pyStrip (w1 ++ (doc ++ w2)) = pyStrip doc := by
    have h1 := pyStrip_pad w1 (doc ++ w2) [] hw1 (by intro c hc; cases hc)
    rw [List.append_nil] at h1
    rw [h1]
    have h2 := pyStrip_pad [] doc w2 (by intro c hc; cases hc) hw2
    rw [List.nil_append] at h2
    exact h2
  rw [hdocid]
  have hraw : ('[' :: (w1 ++ (doc ++ (w2 ++ '|' :: (w3 ++ (d1 ++ (w4 ++ '|' ::
      (w5 ++ (d2 ++ ':' :: (d3 ++ [']'])))))))))) =
      citationMarker w1 doc w2 w3 d1 w4 w5 d2 d3 := by
    simp [citationMarker]
  rw [hraw]

/-- C6, witness for the amended theorem: the answer
`"see [ doc A | 12 | 3:45] end"` yields exactly the one citation with
its raw marker preserved. -/
theorem extract_citations_marker_witness :
    extract_citations ("see ".toList ++
        (citationMarker [' '] "doc A".toList [' '] [' '] "12".toList [' ']
          [' '] "3".toList "45".toList ++ " end".toList)) =
      ⟨pyStrip "doc A".toList, parseNat "12".toList, parseNat "3".toList,
        parseNat "45".toList,
        citationMarker [' '] "doc A".toList [' '] [' '] "12".toList [' ']
          [' '] "3".toList "45".toList⟩ :: extract_citations " end".toList :=
  extract_citations_marker "see ".toList " end".toList [' '] "doc A".toList
    [' '] [' '] "12".toList [' '] [' '] "3".toList "45".toList
    (by decide) (by decide) (by decide) (by decide) (by decide) (by decide)
    (by decide) (by decide) (by decide) (by decide) (by decide) (by decide)
    (by decide) (by decide)

/-- C10, witness: on the page `"alpha beta"`, the heading `"gamma"`
inserted between two other headings is skipped without effect. -/
theorem locateHeadings_skips_unlocatable_witness :
    pyFind "alpha beta".toList "gamma".toList
        (locateCursor "alpha beta".toList ["alpha".toList] 0) = none ∧
    locateHeadings "alpha beta".toList
        (["alpha".toList] ++ "gamma".toList :: ["beta".toList]) 0 =
      locateHeadings "alpha beta".toList (["alpha".toList] ++ ["beta".toList]) 0 ∧
    locateCursor "alpha beta".toList
        (["alpha".toList] ++ "gamma".toList :: ["beta".toList]) 0 =
      locateCursor "alpha beta".toList (["alpha".toList] ++ ["beta".toList]) 0 := by
  refine ⟨by decide, ?_⟩
  have := locateHeadings_skips_unlocatable "alpha beta".toList "gamma".toList
    ["alpha".toList] ["beta".toList] 0 (by decide)
  exact this

end Why
